import Mathlib

/-!
# Verification of the AI-Expert-RL notebooks

Shallow embedding (over `ℚ` for tensor scalars, `List` for 1-D tensors and
Python lists) of the algorithmic core of the repository:

* `compute_gae` from `a2c_batch_learning.ipynb` (GAE backward recurrence);
* `ReplayBuffer` (`reset` / `add` / `can_sample` / `sample` / `_sample_idxs` /
  `_get_batch_tensor`) and `DQN` (`update` / `train` / `compute_td_loss`)
  from `dqn.ipynb`;
* `REINFORCE.compute_return` and `REINFORCE.compute_reinforce_loss` from the
  REINFORCE notebook.

Randomness (`np.random.randint`) is determinised by passing the stream of
drawn values as an explicit oracle `draws : ℕ → ℕ`; the numpy contract that
each draw is uniform on `[0, count)` becomes the hypothesis
`draws i < count`.
-/

namespace RL

/-! ## Generic list helpers (pointwise zips used by the tensor expressions) -/

/-- Pointwise combination of three lists, truncating at the shortest. -/
def zipWith3 (f : α → β → γ → δ) : List α → List β → List γ → List δ
  | a :: as, b :: bs, c :: cs => f a b c :: zipWith3 f as bs cs
  | _, _, _ => []

/-- Pointwise combination of four lists, truncating at the shortest. -/
def zipWith4 (f : α → β → γ → δ → ε) :
    List α → List β → List γ → List δ → List ε
  | a :: as, b :: bs, c :: cs, d :: ds => f a b c d :: zipWith4 f as bs cs ds
  | _, _, _, _ => []

/-- Mean of a list of rationals (`tensor.mean()`); `0` on the empty list. -/
def mean (l : List ℚ) : ℚ := l.sum / l.length

/-! ## GAE (`a2c_batch_learning.ipynb`, `compute_gae`) -/

/-- The backward loop of `compute_gae`: fed the list of pairs
`(delta[t], not_terminated[t])`, it returns the list `gae` defined by the
reverse iteration `discounted_gae = delta[t] + not_terminated[t] * df *
discounted_gae` starting from `0`. -/
def gaeLoop (df : ℚ) : List (ℚ × ℚ) → List ℚ
  | [] => []
  | p :: rest =>
    let gs := gaeLoop df rest
    (p.1 + p.2 * df * gs.headD 0) :: gs

/-- Embedding of `compute_gae(state_value, reward, terminated, gamma, lam)`:
`not_terminated = 1 - terminated`,
`delta = reward + not_terminated * gamma * state_value[1:] - state_value[:-1]`,
then the backward loop with discount factor `gamma * lam`. -/
def compute_gae (state_value reward terminated : List ℚ)
    (gamma lam : ℚ) : List ℚ :=
  let not_terminated := terminated.map (fun x => 1 - x)
  let delta := zipWith4 (fun r nt sv1 sv0 => r + nt * gamma * sv1 - sv0)
    reward not_terminated state_value.tail state_value.dropLast
  let discount_factor := gamma * lam
  gaeLoop discount_factor (delta.zip not_terminated)

/-- The closed-form exponentially-weighted sum the spec describes for GAE on
a fully non-terminal segment:
`gae[t] = Σ_{l < n - t} (gamma*lam)^l * delta[t+l]` with
`delta[t] = reward[t] + gamma * state_value[t+1] - state_value[t]`.
Stated from the spec's words, to be compared with `compute_gae`. -/
def gaeClosedForm (state_value reward : List ℚ) (gamma lam : ℚ) (t : ℕ) : ℚ :=
  ∑ l ∈ Finset.range (reward.length - t),
    (gamma * lam) ^ l *
      (reward.getD (t + l) 0 + gamma * state_value.getD (t + l + 1) 0 -
        state_value.getD (t + l) 0)

/-! ## REINFORCE (`REINFORCE.compute_return`, `REINFORCE.compute_reinforce_loss`) -/

/-- Embedding of `REINFORCE.compute_return`: the backward loop
`G = reward[t] + gamma * G` (starting from `G = 0`) written as structural
recursion, so `returns[t] = reward[t] + gamma * returns[t+1]`. -/
def compute_return (gamma : ℚ) : List ℚ → List ℚ
  | [] => []
  | r :: rest =>
    let g := compute_return gamma rest
    (r + gamma * g.headD 0) :: g

/-- Embedding of `REINFORCE.compute_reinforce_loss`: subtract the mean of the
returns as a baseline, multiply elementwise with `log_pi`, negate the mean. -/
def compute_reinforce_loss (returns log_pi : List ℚ) : ℚ :=
  let centered := returns.map (fun g => g - mean returns);
  -(mean (List.zipWith (fun g lp => g * lp) centered log_pi))

/-! ## Replay buffer (`dqn.ipynb`, class `ReplayBuffer`) -/

/-- One per-environment transition row stored in the replay buffer
(the `Experience` NamedTuple restricted to a single environment; each
component is an opaque array value of type `α`). -/
structure Experience (α : Type) where
  obs : α
  action : α
  next_obs : α
  reward : α
  terminated : α
deriving DecidableEq

/-- State of the Python `ReplayBuffer`: configuration fields, the counters
`n_step`, `count`, `recent_idx`, and the five storage lists, each a
`capacity`-slot list initialised to `None` (`Option.none`). -/
structure ReplayBuffer (α : Type) where
  training_freq : ℕ
  sampled_batch_size : ℕ
  capacity : ℕ
  num_envs : ℕ
  n_step : ℕ
  count : ℕ
  recent_idx : ℤ
  obs : List (Option α)
  action : List (Option α)
  next_obs : List (Option α)
  reward : List (Option α)
  terminated : List (Option α)
deriving DecidableEq

namespace ReplayBuffer

/-- `ReplayBuffer.reset`: clear the counters and refill the five storage
lists with `capacity` copies of `None`. -/
def reset (b : ReplayBuffer α) : ReplayBuffer α :=
  { b with
    n_step := 0
    count := 0
    recent_idx := -1
    obs := List.replicate b.capacity none
    action := List.replicate b.capacity none
    next_obs := List.replicate b.capacity none
    reward := List.replicate b.capacity none
    terminated := List.replicate b.capacity none }

/-- `ReplayBuffer.__init__`: store the configuration and call `reset`. -/
def make (training_freq sampled_batch_size capacity num_envs : ℕ) :
    ReplayBuffer α :=
  reset
    { training_freq := training_freq
      sampled_batch_size := sampled_batch_size
      capacity := capacity
      num_envs := num_envs
      n_step := 0
      count := 0
      recent_idx := -1
      obs := []
      action := []
      next_obs := []
      reward := []
      terminated := [] }

/-- `ReplayBuffer.can_sample`:
`count >= sampled_batch_size and n_step >= training_freq`. -/
def can_sample (b : ReplayBuffer α) : Prop :=
  b.sampled_batch_size ≤ b.count ∧ b.training_freq ≤ b.n_step

instance (b : ReplayBuffer α) : Decidable b.can_sample :=
  inferInstanceAs (Decidable (_ ∧ _))

/-- One iteration of the loop body of `ReplayBuffer.add`: advance
`recent_idx` to `(recent_idx + 1) % capacity`, set
`count = min(count + 1, capacity)`, and write the experience row into the
five storage lists at the new `recent_idx`. -/
def addOne (b : ReplayBuffer α) (e : Experience α) : ReplayBuffer α :=
  let idx : ℤ := (b.recent_idx + 1) % (b.capacity : ℤ)
  { b with
    recent_idx := idx
    count := min (b.count + 1) b.capacity
    obs := b.obs.set idx.toNat (some e.obs)
    action := b.action.set idx.toNat (some e.action)
    next_obs := b.next_obs.set idx.toNat (some e.next_obs)
    reward := b.reward.set idx.toNat (some e.reward)
    terminated := b.terminated.set idx.toNat (some e.terminated) }

/-- `ReplayBuffer.add`: increment `n_step` once, then run the loop body for
`i in range(num_envs)` over the per-environment rows of the experience. -/
def add (b : ReplayBuffer α) (rows : List (Experience α)) : ReplayBuffer α :=
  (rows.take b.num_envs).foldl addOne { b with n_step := b.n_step + 1 }

/-- `ReplayBuffer._sample_idxs`, i.e.
`np.random.randint(self.count, size=self.sampled_batch_size)`, determinised:
`draws` is the stream of random values produced by the generator (uniform on
`[0, count)` by the numpy contract, which theorems state as the hypothesis
`draws i < count`). -/
def sample_idxs (b : ReplayBuffer α) (draws : ℕ → ℕ) : List ℕ :=
  (List.range b.sampled_batch_size).map draws

/-- `ReplayBuffer._get_batch_tensor`: gather `items[i]` for each `i` in
`batch_idx`, in order (`operator.itemgetter(*batch_idx)(items)`). -/
def get_batch_tensor (items : List (Option α)) (batch_idx : List ℕ) :
    List (Option α) :=
  batch_idx.map (fun i => items.getD i none)

/-- `ReplayBuffer.sample`: reset `n_step` to `0`, draw the index batch, and
gather the five batches `obs, action, next_obs, reward, terminated` in that
order. Returns the updated buffer together with the five batches. -/
def sample (b : ReplayBuffer α) (draws : ℕ → ℕ) :
    ReplayBuffer α ×
      (List (Option α) × List (Option α) × List (Option α) ×
        List (Option α) × List (Option α)) :=
  let b' := { b with n_step := 0 }
  let sample_idx := b'.sample_idxs draws
  (b',
    (get_batch_tensor b'.obs sample_idx,
      get_batch_tensor b'.action sample_idx,
      get_batch_tensor b'.next_obs sample_idx,
      get_batch_tensor b'.reward sample_idx,
      get_batch_tensor b'.terminated sample_idx))

/-- Fold a sequence of single-environment `add` calls (`num_envs = 1`
operation traces). -/
def addAll (b : ReplayBuffer α) (es : List (Experience α)) : ReplayBuffer α :=
  es.foldl (fun b e => b.add [e]) b

end ReplayBuffer

/-! ## Specification-side description of the circular-buffer contents -/

/-- Index of the last write into slot `j` among `k` circular writes with
capacity `C`: the greatest `i < k` with `i % C = j` (meaningful when
`j < min k C`). -/
def lastIdx (k C j : ℕ) : ℕ := k - 1 - (k - 1 - j) % C

/-- Specified content of slot `j` after circularly writing the elements of
`xs` (the `i`-th element into slot `i % C`) into `C` initially empty slots:
the most recently written element whose ordinal is congruent to `j`. -/
def slotSpec (xs : List β) (C j : ℕ) : Option β :=
  if j < min xs.length C then xs.get? (lastIdx xs.length C j) else none

/-- Circular write of the elements of `xs` starting at write ordinal `i`
into the accumulator slots (`i`-th element into slot `i % C`). -/
def cyclicWriteFrom (C : ℕ) : ℕ → List β → List (Option β) → List (Option β)
  | _, [], acc => acc
  | i, x :: xs, acc => cyclicWriteFrom C (i + 1) xs (acc.set (i % C) (some x))

/-- Circular write of all elements of `xs` into `C` initially empty slots. -/
def cyclicWrite (C : ℕ) (xs : List β) : List (Option β) :=
  cyclicWriteFrom C 0 xs (List.replicate C none)

/-! ## DQN agent (`dqn.ipynb`, class `DQN`) -/

/-- Maximum entry of a list of Q values (`tensor.max(dim=1)` over one row);
`0` on the empty list (where the tensor operation is undefined). -/
def listMax : List ℚ → ℚ
  | [] => 0
  | x :: xs => xs.foldl max x

/-- `F.mse_loss`: mean of the squared elementwise differences. -/
def mse_loss (input target : List ℚ) : ℚ :=
  mean (List.zipWith (fun x y => (x - y) ^ 2) input target)

/-- Embedding of `DQN.compute_td_loss`. The network is modelled as a
function `σ → List ℚ` from an observation to its per-action Q values;
`network_ng` is the copy applied under `torch.no_grad()` to `next_obs`
(in the program both are `self.network`; keeping them separate records
structurally that the target's next-state Q values are detached from the
gradient). Rows of a batch are list entries; `action` is the list of chosen
action indices (`gather(dim=1, index=action)`). -/
def compute_td_loss (gamma : ℚ) (network network_ng : σ → List ℚ)
    (obs : List σ) (action : List ℕ) (next_obs : List σ)
    (reward terminated : List ℚ) : ℚ :=
  let q_values := obs.map network
  let next_q_values := next_obs.map network_ng
  let q_value := List.zipWith (fun qs a => qs.getD a 0) q_values action
  let next_max_q_value := next_q_values.map listMax
  let not_terminated := terminated.map (fun t => 1 - t)
  let q_target := zipWith3 (fun r nt m => r + nt * gamma * m)
    reward not_terminated next_max_q_value
  mse_loss q_target q_value

/-- Effect of `DQN.train` on the replay buffer: the body runs `epoch` times
and each iteration calls `replay_buffer.sample()`, whose only effect on the
buffer state is to reset `n_step` to `0` (the drawn batch only feeds the
gradient step, which does not touch the buffer). -/
def trainBuf (epoch : ℕ) (b : ReplayBuffer α) : ReplayBuffer α :=
  match epoch with
  | 0 => b
  | e + 1 => trainBuf e ((b.sample (fun _ => 0)).1)

/-- Effect of `DQN.update` on the replay buffer (single environment):
add the experience, then train exactly when `can_sample` holds. Returns the
new buffer state and whether `train` was invoked. -/
def dqnUpdate (epoch : ℕ) (b : ReplayBuffer α) (e : Experience α) :
    ReplayBuffer α × Bool :=
  let b1 := b.add [e]
  if b1.can_sample then (trainBuf epoch b1, true) else (b1, false)

/-- Run a sequence of `DQN.update` calls; returns the final buffer state and
the per-call list of whether `train` was invoked. -/
def dqnRun (epoch : ℕ) (b : ReplayBuffer α) :
    List (Experience α) → ReplayBuffer α × List Bool
  | [] => (b, [])
  | e :: es =>
    let r := dqnUpdate epoch b e
    let rest := dqnRun epoch r.1 es
    (rest.1, r.2 :: rest.2)

/-- The buffer state reached by a sequence of `DQN.update` calls. -/
def dqnState (epoch : ℕ) (b : ReplayBuffer α) (es : List (Experience α)) :
    ReplayBuffer α :=
  es.foldl (fun b e => (dqnUpdate epoch b e).1) b

/-! ## Replay buffer invariant (claim C9) -/

/-- The invariant claimed for the replay buffer: `count ≤ capacity` and the
first `count` slots of each of the five storage lists are filled. -/
def bufInv (b : ReplayBuffer α) : Prop :=
  b.count ≤ b.capacity ∧
    ∀ j < b.count,
      (b.obs.getD j none).isSome ∧ (b.action.getD j none).isSome ∧
        (b.next_obs.getD j none).isSome ∧ (b.reward.getD j none).isSome ∧
        (b.terminated.getD j none).isSome

/-- The strengthened, inductive form of the buffer invariant: additionally
ties `recent_idx` to `count` while the buffer is still filling and records
the list lengths and the bounds on `recent_idx`. -/
def bufInvStrong (b : ReplayBuffer α) : Prop :=
  1 ≤ b.capacity ∧
    b.count ≤ b.capacity ∧
    b.obs.length = b.capacity ∧ b.action.length = b.capacity ∧
    b.next_obs.length = b.capacity ∧ b.reward.length = b.capacity ∧
    b.terminated.length = b.capacity ∧
    -1 ≤ b.recent_idx ∧ b.recent_idx < (b.capacity : ℤ) ∧
    (b.count < b.capacity → b.recent_idx = (b.count : ℤ) - 1) ∧
    ∀ j < b.count,
      (b.obs.getD j none).isSome ∧ (b.action.getD j none).isSome ∧
        (b.next_obs.getD j none).isSome ∧ (b.reward.getD j none).isSome ∧
        (b.terminated.getD j none).isSome

/-! ## Helper lemmas on the list combinators -/

theorem zipWith4_get? (f : α → β → γ → δ → ε) :
    ∀ (as : List α) (bs : List β) (cs : List γ) (ds : List δ) (i : ℕ),
      (zipWith4 f as bs cs ds).get? i =
        (as.get? i).bind fun a => (bs.get? i).bind fun b =>
          (cs.get? i).bind fun c => (ds.get? i).map fun d => f a b c d := by
  intro as
  induction as with
  | nil => intro bs cs ds i; simp [zipWith4]
  | cons a as ih =>
    intro bs cs ds i
    cases bs with
    | nil => cases ((a :: as).get? i) <;> simp [zipWith4]
    | cons b bs =>
      cases cs with
      | nil =>
        cases ((a :: as).get? i) <;> cases ((b :: bs).get? i) <;>
          simp [zipWith4]
      | cons c cs =>
        cases ds with
        | nil =>
          cases ((a :: as).get? i) <;> cases ((b :: bs).get? i) <;>
            cases ((c :: cs).get? i) <;> simp [zipWith4]
        | cons d ds =>
          cases i with
          | zero => simp [zipWith4]
          | succ i => simpa [zipWith4] using ih bs cs ds i

theorem zipWith3_get? (f : α → β → γ → δ) :
    ∀ (as : List α) (bs : List β) (cs : List γ) (i : ℕ),
      (zipWith3 f as bs cs).get? i =
        (as.get? i).bind fun a => (bs.get? i).bind fun b =>
          (cs.get? i).map fun c => f a b c := by
  intro as
  induction as with
  | nil => intro bs cs i; simp [zipWith3]
  | cons a as ih =>
    intro bs cs i
    cases bs with
    | nil => cases ((a :: as).get? i) <;> simp [zipWith3]
    | cons b bs =>
      cases cs with
      | nil =>
        cases ((a :: as).get? i) <;> cases ((b :: bs).get? i) <;>
          simp [zipWith3]
      | cons c cs =>
        cases i with
        | zero => simp [zipWith3]
        | succ i => simpa [zipWith3] using ih bs cs i

theorem zipWith4_length (f : α → β → γ → δ → ε) :
    ∀ (as : List α) (bs : List β) (cs : List γ) (ds : List δ),
      (zipWith4 f as bs cs ds).length =
        min (min as.length bs.length) (min cs.length ds.length) := by
  intro as
  induction as with
  | nil => intro bs cs ds; simp [zipWith4]
  | cons a as ih =>
    intro bs cs ds
    cases bs with
    | nil => simp [zipWith4]
    | cons b bs =>
      cases cs with
      | nil => simp [zipWith4]
      | cons c cs =>
        cases ds with
        | nil => simp [zipWith4]
        | cons d ds =>
          simp only [zipWith4, List.length_cons, ih]
          omega

theorem sum_eq_sum_getD (l : List ℚ) :
    l.sum = ∑ i ∈ Finset.range l.length, l.getD i 0 := by
  induction l with
  | nil => simp
  | cons x xs ih =>
    rw [List.sum_cons, ih, List.length_cons, Finset.sum_range_succ']
    simp [List.getD, add_comm]

theorem zipWith3_length (f : α → β → γ → δ) :
    ∀ (as : List α) (bs : List β) (cs : List γ),
      (zipWith3 f as bs cs).length =
        min as.length (min bs.length cs.length) := by
  intro as
  induction as with
  | nil => intro bs cs; simp [zipWith3]
  | cons a as ih =>
    intro bs cs
    cases bs with
    | nil => simp [zipWith3]
    | cons b bs =>
      cases cs with
      | nil => simp [zipWith3]
      | cons c cs =>
        simp only [zipWith3, List.length_cons, ih]
        omega

/-! ## The GAE backward loop -/

theorem gaeLoop_length (df : ℚ) : ∀ l : List (ℚ × ℚ),
    (gaeLoop df l).length = l.length := by
  intro l
  induction l with
  | nil => rfl
  | cons p rest ih => simp [gaeLoop, ih]

/-- Pointwise characterisation of the backward loop: entry `t` equals
`delta[t] + not_terminated[t] * df * gae[t+1]`, the entry past the end being
read as `0` (the loop's initial accumulator). -/
theorem gaeLoop_get? (df : ℚ) : ∀ (l : List (ℚ × ℚ)) (t : ℕ),
    (gaeLoop df l).get? t =
      (l.get? t).map fun p =>
        p.1 + p.2 * df * (((gaeLoop df l).get? (t + 1)).getD 0) := by
  intro l
  induction l with
  | nil => intro t; simp [gaeLoop]
  | cons p rest ih =>
    intro t
    cases t with
    | zero =>
      simp only [gaeLoop, List.get?_cons_zero, List.get?_cons_succ,
        Option.map_some']
      rw [List.headD_eq_head?]
      cases h : gaeLoop df rest with
      | nil => simp [h]
      | cons g gs => simp [h]
    | succ t => simpa [gaeLoop] using ih t

theorem get?_eq_some_getD (l : List α) (d : α) (t : ℕ) (h : t < l.length) :
    l.get? t = some (l.getD t d) := by
  rw [List.getD_eq_getD_get?]
  cases hh : l.get? t with
  | none => exact absurd (List.get?_eq_none.mp hh) (by omega)
  | some a => rfl

theorem tail_get? (l : List α) (t : ℕ) : l.tail.get? t = l.get? (t + 1) := by
  cases l <;> simp

theorem dropLast_get? (l : List α) (t : ℕ) (h : t + 1 < l.length) :
    l.dropLast.get? t = l.get? t := by
  rw [List.dropLast_eq_take, List.get?_take]
  omega

theorem compute_gae_length (state_value reward terminated : List ℚ)
    (gamma lam : ℚ) (n : ℕ) (hr : reward.length = n)
    (hsv : state_value.length = n + 1) (htm : terminated.length = n) :
    (compute_gae state_value reward terminated gamma lam).length = n := by
  unfold compute_gae
  rw [gaeLoop_length, List.length_zip, zipWith4_length]
  simp [hr, hsv, htm]

/-- Pointwise recurrence satisfied by `compute_gae`: entry `t` equals
`delta[t] + (1 - terminated[t]) * gamma * lam * gae[t+1]`, the entry past
the end being read as `0`. -/
theorem compute_gae_get? (state_value reward terminated : List ℚ)
    (gamma lam : ℚ) (n : ℕ) (hr : reward.length = n)
    (hsv : state_value.length = n + 1) (htm : terminated.length = n)
    (t : ℕ) (ht : t < n) :
    (compute_gae state_value reward terminated gamma lam).get? t =
      some ((reward.getD t 0 +
          (1 - terminated.getD t 0) * gamma * state_value.getD (t + 1) 0 -
          state_value.getD t 0) +
        (1 - terminated.getD t 0) * gamma * lam *
          (((compute_gae state_value reward terminated gamma lam).get?
            (t + 1)).getD 0)) := by
  conv_lhs => rw [compute_gae, gaeLoop_get?]
  have hnt : (terminated.map fun x => 1 - x).get? t =
      some (1 - terminated.getD t 0) := by
    rw [List.get?_map, get?_eq_some_getD terminated 0 t (by omega)]
    rfl
  have hrt : reward.get? t = some (reward.getD t 0) :=
    get?_eq_some_getD reward 0 t (by omega)
  have hsv1 : state_value.tail.get? t = some (state_value.getD (t + 1) 0) := by
    rw [tail_get?]
    exact get?_eq_some_getD state_value 0 (t + 1) (by omega)
  have hsv0 : state_value.dropLast.get? t = some (state_value.getD t 0) := by
    rw [dropLast_get? state_value t (by omega)]
    exact get?_eq_some_getD state_value 0 t (by omega)
  have hδ : (zipWith4 (fun r nt sv1 sv0 => r + nt * gamma * sv1 - sv0)
      reward (terminated.map fun x => 1 - x) state_value.tail
      state_value.dropLast).get? t =
      some (reward.getD t 0 +
        (1 - terminated.getD t 0) * gamma * state_value.getD (t + 1) 0 -
        state_value.getD t 0) := by
    rw [zipWith4_get?, hrt, hnt, hsv1, hsv0]
    rfl
  have hpair := (List.get?_zip_eq_some _ _
    ((reward.getD t 0 +
        (1 - terminated.getD t 0) * gamma * state_value.getD (t + 1) 0 -
        state_value.getD t 0), (1 - terminated.getD t 0)) t).mpr ⟨hδ, hnt⟩
  rw [hpair]
  simp only [Option.map_some', Option.some.injEq]
  rw [compute_gae]
  ring_nf

/-- Reading `compute_gae` past the end (at `t = n`) yields `none`, so the
`getD`-read there is `0`. -/
theorem compute_gae_get?_past (state_value reward terminated : List ℚ)
    (gamma lam : ℚ) (n : ℕ) (hr : reward.length = n)
    (hsv : state_value.length = n + 1) (htm : terminated.length = n)
    (t : ℕ) (ht : n ≤ t) :
    (compute_gae state_value reward terminated gamma lam).get? t = none := by
  rw [List.get?_eq_none,
    compute_gae_length state_value reward terminated gamma lam n hr hsv htm]
  omega

/-- C1: for every `n ≥ 1`, every `state_value` of length `n+1` and `reward`,
`terminated` of length `n` with `terminated` entries in `{0,1}`,
`compute_gae` returns a vector of length `n` satisfying the backward
recurrence `gae[n-1] = delta[n-1]` and
`gae[t] = delta[t] + (1 - terminated[t]) * gamma * lam * gae[t+1]` for
`t < n-1`, where
`delta[t] = reward[t] + (1 - terminated[t]) * gamma * state_value[t+1] -
state_value[t]`. -/
theorem c1_compute_gae_recurrence
    (state_value reward terminated : List ℚ) (gamma lam : ℚ) (n : ℕ)
    (hn : 1 ≤ n) (hr : reward.length = n) (hsv : state_value.length = n + 1)
    (htm : terminated.length = n)
    (hb : ∀ x ∈ terminated, x = 0 ∨ x = 1) :
    (compute_gae state_value reward terminated gamma lam).length = n ∧
    (compute_gae state_value reward terminated gamma lam).getD (n - 1) 0 =
      reward.getD (n - 1) 0 +
        (1 - terminated.getD (n - 1) 0) * gamma * state_value.getD n 0 -
        state_value.getD (n - 1) 0 ∧
    ∀ t, t < n - 1 →
      (compute_gae state_value reward terminated gamma lam).getD t 0 =
        (reward.getD t 0 +
            (1 - terminated.getD t 0) * gamma * state_value.getD (t + 1) 0 -
            state_value.getD t 0) +
          (1 - terminated.getD t 0) * gamma * lam *
            (compute_gae state_value reward terminated gamma lam).getD
              (t + 1) 0 := by
  refine ⟨compute_gae_length state_value reward terminated gamma lam n
    hr hsv htm, ?_, ?_⟩
  · have hn1 : n - 1 + 1 = n := by omega
    rw [List.getD_eq_getD_get?,
      compute_gae_get? state_value reward terminated gamma lam n hr hsv htm
        (n - 1) (by omega), hn1,
      compute_gae_get?_past state_value reward terminated gamma lam n
        hr hsv htm n le_rfl]
    simp
  · intro t ht
    rw [List.getD_eq_getD_get?,
      compute_gae_get? state_value reward terminated gamma lam n hr hsv htm
        t (by omega), List.getD_eq_getD_get?]
    simp

/-- Witness for C1 at a concrete input. -/
theorem c1_witness :
    (compute_gae [1, 2, 4] [3, 5] [0, 1] (1/2) (1/3)).length = 2 ∧
    (compute_gae [1, 2, 4] [3, 5] [0, 1] (1/2) (1/3)).getD 0 0 =
      (([3, 5] : List ℚ).getD 0 0 +
          (1 - ([0, 1] : List ℚ).getD 0 0) * (1/2) *
            ([1, 2, 4] : List ℚ).getD 1 0 -
          ([1, 2, 4] : List ℚ).getD 0 0) +
        (1 - ([0, 1] : List ℚ).getD 0 0) * (1/2) * (1/3) *
          (compute_gae [1, 2, 4] [3, 5] [0, 1] (1/2) (1/3)).getD 1 0 := by
  have h := c1_compute_gae_recurrence [1, 2, 4] [3, 5] [0, 1] (1/2) (1/3) 2
    (by norm_num) (by norm_num) (by norm_num) (by norm_num)
    (by intro x hx; simp at hx; rcases hx with h | h <;> simp [h])
  exact ⟨h.1, h.2.2 0 (by norm_num)⟩

/-- Agreement of the GAE backward loop on a prefix that is cut off by a
zero `not_terminated` factor at position `t`: if the `(delta,
not_terminated)` pair lists agree at all positions `s ≤ t` and the factor at
`t` is `0`, the loop outputs agree at all positions `s ≤ t`. -/
theorem gaeLoop_agree (df : ℚ) (t : ℕ) (l₁ l₂ : List (ℚ × ℚ))
    (hag : ∀ s ≤ t, l₁.get? s = l₂.get? s)
    (h0 : (l₁.get? t).map Prod.snd = some 0) :
    ∀ s ≤ t, (gaeLoop df l₁).get? s = (gaeLoop df l₂).get? s := by
  have key : ∀ k s, s + k = t →
      (gaeLoop df l₁).get? s = (gaeLoop df l₂).get? s := by
    intro k
    induction k with
    | zero =>
      intro s hs
      have hst : s = t := by omega
      subst hst
      rw [gaeLoop_get? df l₁ s, gaeLoop_get? df l₂ s, ← hag s le_rfl]
      cases hp : l₁.get? s with
      | none => simp
      | some p =>
        rw [hp] at h0
        have hp2 : p.2 = 0 := by simpa using h0
        simp [hp2]
    | succ k ih =>
      intro s hs
      rw [gaeLoop_get? df l₁ s, gaeLoop_get? df l₂ s, ← hag s (by omega),
        ih (s + 1) (by omega)]
  intro s hs
  exact key (t - s) s (by omega)

/-- C4: `compute_gae` masks episode boundaries. First, at any index `t`
with `terminated[t] = 1` the output is `reward[t] - state_value[t]`.
Second, two inputs that agree on `reward`, `terminated` and `state_value`
at all indices `≤ t` and are terminal at `t` produce the same `gae[0..t]`:
nothing after a terminal step influences the advantage at or before it. -/
theorem c4_compute_gae_boundary_mask (gamma lam : ℚ) :
    (∀ (state_value reward terminated : List ℚ) (n t : ℕ),
      reward.length = n → state_value.length = n + 1 →
      terminated.length = n → t < n → terminated.getD t 0 = 1 →
      (compute_gae state_value reward terminated gamma lam).getD t 0 =
        reward.getD t 0 - state_value.getD t 0) ∧
    (∀ (sv₁ r₁ tm₁ sv₂ r₂ tm₂ : List ℚ) (n₁ n₂ t : ℕ),
      r₁.length = n₁ → sv₁.length = n₁ + 1 → tm₁.length = n₁ →
      r₂.length = n₂ → sv₂.length = n₂ + 1 → tm₂.length = n₂ →
      t < n₁ → t < n₂ → tm₁.getD t 0 = 1 →
      (∀ s ≤ t, r₁.get? s = r₂.get? s ∧ tm₁.get? s = tm₂.get? s ∧
        sv₁.get? s = sv₂.get? s) →
      ∀ s ≤ t, (compute_gae sv₁ r₁ tm₁ gamma lam).get? s =
        (compute_gae sv₂ r₂ tm₂ gamma lam).get? s) := by
  have pair_get? : ∀ (sv r tm : List ℚ) (n t : ℕ), r.length = n →
      sv.length = n + 1 → tm.length = n → t < n →
      ((zipWith4 (fun r nt sv1 sv0 => r + nt * gamma * sv1 - sv0) r
        (tm.map fun x => 1 - x) sv.tail sv.dropLast).zip
          (tm.map fun x => 1 - x)).get? t =
        some ((r.getD t 0 + (1 - tm.getD t 0) * gamma * sv.getD (t + 1) 0 -
          sv.getD t 0), (1 - tm.getD t 0)) := by
    intro sv r tm n t hr hsv htm ht
    have hnt : (tm.map fun x => 1 - x).get? t = some (1 - tm.getD t 0) := by
      rw [List.get?_map, get?_eq_some_getD tm 0 t (by omega)]
      rfl
    refine (List.get?_zip_eq_some _ _ _ t).mpr ⟨?_, hnt⟩
    rw [zipWith4_get?, get?_eq_some_getD r 0 t (by omega), hnt, tail_get?,
      get?_eq_some_getD sv 0 (t + 1) (by omega),
      dropLast_get? sv t (by omega), get?_eq_some_getD sv 0 t (by omega)]
    rfl
  constructor
  · intro sv r tm n t hr hsv htm ht hterm
    rw [List.getD_eq_getD_get?,
      compute_gae_get? sv r tm gamma lam n hr hsv htm t ht, hterm]
    simp
  · intro sv₁ r₁ tm₁ sv₂ r₂ tm₂ n₁ n₂ t hr₁ hsv₁ htm₁ hr₂ hsv₂ htm₂
      ht₁ ht₂ hterm hagree
    have hterm₂ : tm₂.getD t 0 = 1 := by
      rw [List.getD_eq_getD_get?, ← (hagree t le_rfl).2.1,
        ← List.getD_eq_getD_get?, hterm]
    have hpag : ∀ s ≤ t,
        ((zipWith4 (fun r nt sv1 sv0 => r + nt * gamma * sv1 - sv0) r₁
          (tm₁.map fun x => 1 - x) sv₁.tail sv₁.dropLast).zip
            (tm₁.map fun x => 1 - x)).get? s =
        ((zipWith4 (fun r nt sv1 sv0 => r + nt * gamma * sv1 - sv0) r₂
          (tm₂.map fun x => 1 - x) sv₂.tail sv₂.dropLast).zip
            (tm₂.map fun x => 1 - x)).get? s := by
      intro s hst
      rw [pair_get? sv₁ r₁ tm₁ n₁ s hr₁ hsv₁ htm₁ (by omega),
        pair_get? sv₂ r₂ tm₂ n₂ s hr₂ hsv₂ htm₂ (by omega)]
      have hrs : r₁.getD s 0 = r₂.getD s 0 := by
        rw [List.getD_eq_getD_get?, (hagree s hst).1, ← List.getD_eq_getD_get?]
      have htms : tm₁.getD s 0 = tm₂.getD s 0 := by
        rw [List.getD_eq_getD_get?, (hagree s hst).2.1,
          ← List.getD_eq_getD_get?]
      have hsvs : sv₁.getD s 0 = sv₂.getD s 0 := by
        rw [List.getD_eq_getD_get?, (hagree s hst).2.2,
          ← List.getD_eq_getD_get?]
      rcases Nat.lt_or_ge s t with hlt | hge
      · have hsvs1 : sv₁.getD (s + 1) 0 = sv₂.getD (s + 1) 0 := by
          rw [List.getD_eq_getD_get?, (hagree (s + 1) (by omega)).2.2,
            ← List.getD_eq_getD_get?]
        rw [hrs, htms, hsvs, hsvs1]
      · have hst' : s = t := by omega
        subst hst'
        rw [hrs, hsvs, htms, hterm₂]
        norm_num
    have h0 : (((zipWith4 (fun r nt sv1 sv0 => r + nt * gamma * sv1 - sv0) r₁
        (tm₁.map fun x => 1 - x) sv₁.tail sv₁.dropLast).zip
          (tm₁.map fun x => 1 - x)).get? t).map Prod.snd = some 0 := by
      rw [pair_get? sv₁ r₁ tm₁ n₁ t hr₁ hsv₁ htm₁ ht₁, hterm]
      norm_num
    intro s hst
    rw [compute_gae, compute_gae]
    exact gaeLoop_agree (gamma * lam) t _ _ hpag h0 s hst

/-- Witness for C4 at a concrete input. -/
theorem c4_witness :
    (compute_gae [1, 2, 4] [3, 5] [1, 0] (1/2) (1/3)).getD 0 0 =
      ([3, 5] : List ℚ).getD 0 0 - ([1, 2, 4] : List ℚ).getD 0 0 ∧
    (compute_gae [1, 2, 4] [3, 5] [1, 0] (1/2) (1/3)).get? 0 =
      (compute_gae [1, 9, 7] [3, 8] [1, 1] (1/2) (1/3)).get? 0 := by
  constructor
  · exact (c4_compute_gae_boundary_mask (1/2) (1/3)).1 [1, 2, 4] [3, 5]
      [1, 0] 2 0 (by norm_num) (by norm_num) (by norm_num) (by norm_num)
      (by norm_num)
  · exact (c4_compute_gae_boundary_mask (1/2) (1/3)).2 [1, 2, 4] [3, 5]
      [1, 0] [1, 9, 7] [3, 8] [1, 1] 2 2 0 (by norm_num) (by norm_num)
      (by norm_num) (by norm_num) (by norm_num) (by norm_num) (by norm_num)
      (by norm_num) (by norm_num)
      (by intro s hs
          have hs0 : s = 0 := Nat.le_zero.mp hs
          subst hs0
          exact ⟨rfl, rfl, rfl⟩)
      0 le_rfl

/-- C5: on a segment with every `terminated` entry `0`, the reverse
iteration of `compute_gae` equals the closed-form exponentially-weighted
sum `gae[t] = Σ_{l ≤ n-1-t} (gamma*lam)^l * delta[t+l]` with
`delta[t] = reward[t] + gamma * state_value[t+1] - state_value[t]`. -/
theorem c5_compute_gae_closed_form
    (state_value reward terminated : List ℚ) (gamma lam : ℚ) (n : ℕ)
    (hr : reward.length = n) (hsv : state_value.length = n + 1)
    (htm : terminated.length = n) (h0 : ∀ x ∈ terminated, x = 0) :
    ∀ t < n, (compute_gae state_value reward terminated gamma lam).getD t 0 =
      gaeClosedForm state_value reward gamma lam t := by
  have htm0 : ∀ t, t < n → terminated.getD t 0 = 0 := by
    intro t ht
    rw [List.getD_eq_getElem _ _ (by omega)]
    exact h0 _ (List.getElem_mem _)
  have key : ∀ k t, t + k + 1 = n →
      (compute_gae state_value reward terminated gamma lam).getD t 0 =
        gaeClosedForm state_value reward gamma lam t := by
    intro k
    induction k with
    | zero =>
      intro t htn
      have hrec := compute_gae_get? state_value reward terminated gamma lam n
        hr hsv htm t (by omega)
      rw [compute_gae_get?_past state_value reward terminated gamma lam n
        hr hsv htm (t + 1) (by omega)] at hrec
      rw [List.getD_eq_getD_get?, hrec, Option.getD_some, htm0 t (by omega),
        gaeClosedForm, hr, show n - t = 1 from by omega,
        Finset.sum_range_one]
      simp only [add_zero, pow_zero, Option.getD_none]
      ring
    | succ k ih =>
      intro t htn
      have hrec := compute_gae_get? state_value reward terminated gamma lam n
        hr hsv htm t (by omega)
      have hih := ih (t + 1) (by omega)
      rw [List.getD_eq_getD_get?] at hih ⊢
      rw [hrec, Option.getD_some, htm0 t (by omega), hih]
      have hsum : gamma * lam *
          (∑ l ∈ Finset.range (n - (t + 1)), (gamma * lam) ^ l *
            (reward.getD (t + 1 + l) 0 +
              gamma * state_value.getD (t + 1 + l + 1) 0 -
              state_value.getD (t + 1 + l) 0)) =
          ∑ l ∈ Finset.range (n - (t + 1)), (gamma * lam) ^ (l + 1) *
            (reward.getD (t + (l + 1)) 0 +
              gamma * state_value.getD (t + (l + 1) + 1) 0 -
              state_value.getD (t + (l + 1)) 0) := by
        rw [Finset.mul_sum]
        refine Finset.sum_congr rfl fun l hl => ?_
        rw [show t + 1 + l = t + (l + 1) from by omega, pow_succ']
        ring
      rw [gaeClosedForm, gaeClosedForm, hr,
        show n - t = (n - (t + 1)) + 1 from by omega,
        Finset.sum_range_succ', ← hsum]
      simp only [pow_zero, one_mul, add_zero]
      ring

  intro t ht
  exact key (n - t - 1) t (by omega)

/-- Witness for C5 at a concrete input. -/
theorem c5_witness :
    (compute_gae [1, 2, 4] [3, 5] [0, 0] (1/2) (1/3)).getD 0 0 =
      gaeClosedForm [1, 2, 4] [3, 5] (1/2) (1/3) 0 :=
  c5_compute_gae_closed_form [1, 2, 4] [3, 5] [0, 0] (1/2) (1/3) 2
    (by norm_num) (by norm_num) (by norm_num)
    (by intro x hx; simpa using hx) 0 (by norm_num)

/-! ## REINFORCE theorems -/

theorem compute_return_length (gamma : ℚ) :
    ∀ l : List ℚ, (compute_return gamma l).length = l.length := by
  intro l
  induction l with
  | nil => rfl
  | cons r rest ih => simp [compute_return, ih]

/-- Pointwise recurrence satisfied by `compute_return`:
`returns[t] = reward[t] + gamma * returns[t+1]`, the entry past the end
being read as `0` (the loop's initial `G`). -/
theorem compute_return_get? (gamma : ℚ) : ∀ (l : List ℚ) (t : ℕ),
    (compute_return gamma l).get? t =
      (l.get? t).map fun r =>
        r + gamma * (((compute_return gamma l).get? (t + 1)).getD 0) := by
  intro l
  induction l with
  | nil => intro t; simp [compute_return]
  | cons r rest ih =>
    intro t
    cases t with
    | zero =>
      simp only [compute_return, List.get?_cons_zero, List.get?_cons_succ,
        Option.map_some']
      rw [List.headD_eq_head?]
      cases h : compute_return gamma rest with
      | nil => simp [h]
      | cons g gs => simp [h]
    | succ t => simpa [compute_return] using ih t

theorem compute_return_get?_past (gamma : ℚ) (l : List ℚ) (t : ℕ)
    (ht : l.length ≤ t) : (compute_return gamma l).get? t = none := by
  rw [List.get?_eq_none, compute_return_length]
  omega

/-- C8: for a non-empty reward vector of length `T`,
`REINFORCE.compute_return` returns the discounted returns
`returns[t] = Σ_{k ≤ T-1-t} gamma^k * reward[t+k]` (computed by the
backward recurrence `G = reward[t] + gamma * G` from `G = 0`). -/
theorem c8_compute_return_discounted (gamma : ℚ) (reward : List ℚ)
    (hne : reward ≠ []) :
    (compute_return gamma reward).length = reward.length ∧
    ∀ t < reward.length,
      (compute_return gamma reward).getD t 0 =
        ∑ k ∈ Finset.range (reward.length - t),
          gamma ^ k * reward.getD (t + k) 0 := by
  refine ⟨compute_return_length gamma reward, ?_⟩
  have key : ∀ k t, t + k + 1 = reward.length →
      (compute_return gamma reward).getD t 0 =
        ∑ k ∈ Finset.range (reward.length - t),
          gamma ^ k * reward.getD (t + k) 0 := by
    intro k
    induction k with
    | zero =>
      intro t htn
      have hrec := compute_return_get? gamma reward t
      rw [compute_return_get?_past gamma reward (t + 1) (by omega),
        get?_eq_some_getD reward 0 t (by omega)] at hrec
      rw [List.getD_eq_getD_get?, hrec,
        show reward.length - t = 1 from by omega, Finset.sum_range_one]
      simp only [Option.map_some', Option.getD_some, add_zero, pow_zero,
        Option.getD_none]
      ring
    | succ k ih =>
      intro t htn
      have hrec := compute_return_get? gamma reward t
      rw [get?_eq_some_getD reward 0 t (by omega)] at hrec
      have hih := ih (t + 1) (by omega)
      rw [List.getD_eq_getD_get?] at hih ⊢
      rw [hrec]
      simp only [Option.map_some', Option.getD_some]
      rw [hih]
      have hsum : gamma *
          (∑ l ∈ Finset.range (reward.length - (t + 1)), gamma ^ l *
            reward.getD (t + 1 + l) 0) =
          ∑ l ∈ Finset.range (reward.length - (t + 1)), gamma ^ (l + 1) *
            reward.getD (t + (l + 1)) 0 := by
        rw [Finset.mul_sum]
        refine Finset.sum_congr rfl fun l hl => ?_
        rw [show t + 1 + l = t + (l + 1) from by omega, pow_succ']
        ring
      rw [show reward.length - t = (reward.length - (t + 1)) + 1 from
        by omega, Finset.sum_range_succ', ← hsum]
      simp only [pow_zero, one_mul, add_zero]
      ring
  intro t ht
  exact key (reward.length - t - 1) t (by omega)

/-- Witness for C8 at a concrete input. -/
theorem c8_witness :
    (compute_return (1/2) [4, 6]).length = 2 ∧
    (compute_return (1/2) [4, 6]).getD 0 0 =
      ∑ k ∈ Finset.range (2 - 0), (1/2 : ℚ) ^ k * [4, 6].getD (0 + k) 0 := by
  have h := c8_compute_return_discounted (1/2) [4, 6]
    (List.cons_ne_nil _ _)
  exact ⟨h.1, h.2 0 (by norm_num)⟩

theorem sum_map_add_const (l : List ℚ) (c : ℚ) :
    (l.map fun g => g + c).sum = l.sum + c * l.length := by
  induction l with
  | nil => simp
  | cons x xs ih =>
    simp only [List.map_cons, List.sum_cons, ih, List.length_cons]
    push_cast
    ring

theorem mean_map_add_const (l : List ℚ) (c : ℚ) (hne : l ≠ []) :
    mean (l.map fun g => g + c) = mean l + c := by
  have hpos := List.length_pos.mpr hne
  have hlen : (l.length : ℚ) ≠ 0 := Nat.cast_ne_zero.mpr (by omega)
  rw [mean, mean, List.length_map, sum_map_add_const]
  field_simp

/-- C10: `REINFORCE.compute_reinforce_loss` is invariant under a uniform
shift of the returns, because the mean of the returns is subtracted as a
baseline before weighting by `log_pi`. -/
theorem c10_reinforce_loss_shift_invariant (returns log_pi : List ℚ)
    (c : ℚ) (hlen : returns.length = log_pi.length) (hne : returns ≠ []) :
    compute_reinforce_loss (returns.map fun g => g + c) log_pi =
      compute_reinforce_loss returns log_pi := by
  rw [compute_reinforce_loss, compute_reinforce_loss,
    mean_map_add_const returns c hne, List.map_map]
  have hfun : ((fun g => g - (mean returns + c)) ∘ fun g => g + c) =
      fun g => g - mean returns := by
    funext g
    simp only [Function.comp]
    ring
  rw [hfun]

/-- Witness for C10 at a concrete input. -/
theorem c10_witness :
    compute_reinforce_loss ([3, 5].map fun g => g + 7) [2, 4] =
      compute_reinforce_loss [3, 5] [2, 4] :=
  c10_reinforce_loss_shift_invariant [3, 5] [2, 4] 7 (by norm_num)
    (List.cons_ne_nil _ _)

/-! ## DQN TD loss -/

theorem mse_loss_eq (a b : List ℚ) (B : ℕ) (ha : a.length = B)
    (hb : b.length = B) :
    mse_loss a b = (∑ i ∈ Finset.range B, (a.getD i 0 - b.getD i 0) ^ 2) / B := by
  rw [mse_loss, mean, sum_eq_sum_getD]
  have hlen : (List.zipWith (fun x y => (x - y) ^ 2) a b).length = B := by
    rw [List.length_zipWith]
    omega
  rw [hlen]
  congr 1
  refine Finset.sum_congr rfl fun i hi => ?_
  have hi' : i < B := Finset.mem_range.mp hi
  rw [List.getD_eq_getD_get?, List.get?_zipWith',
    get?_eq_some_getD a 0 i (by omega), get?_eq_some_getD b 0 i (by omega)]
  rfl

/-- `listMax` is the maximum of a non-empty list: it is an element and an
upper bound. -/
theorem listMax_spec : ∀ l : List ℚ, l ≠ [] →
    listMax l ∈ l ∧ ∀ x ∈ l, x ≤ listMax l := by
  have key : ∀ (xs : List ℚ) (a : ℚ),
      (xs.foldl max a = a ∨ xs.foldl max a ∈ xs) ∧
        a ≤ xs.foldl max a ∧ ∀ x ∈ xs, x ≤ xs.foldl max a := by
    intro xs
    induction xs with
    | nil => intro a; simp
    | cons y ys ih =>
      intro a
      have h := ih (max a y)
      refine ⟨?_, ?_, ?_⟩
      · rcases h.1 with h1 | h1
        · rcases max_cases a y with ⟨hm, _⟩ | ⟨hm, _⟩
          · exact Or.inl (by rw [List.foldl_cons, h1, hm])
          · exact Or.inr (by rw [List.foldl_cons, h1, hm]; exact
              List.mem_cons_self y ys)
        · exact Or.inr (List.mem_cons_of_mem y h1)
      · exact le_trans (le_max_left a y) h.2.1
      · intro x hx
        rcases List.mem_cons.mp hx with hx | hx
        · subst hx
          exact le_trans (le_max_right a x) h.2.1
        · exact h.2.2 x hx
  intro l hl
  cases l with
  | nil => exact absurd rfl hl
  | cons x xs =>
    have h := key xs x
    constructor
    · rcases h.1 with h1 | h1
      · rw [listMax, h1]
        exact List.mem_cons_self x xs
      · exact List.mem_cons_of_mem x h1
    · intro y hy
      rcases List.mem_cons.mp hy with hy | hy
      · subst hy
        exact h.2.1
      · exact h.2.2 y hy

/-- C6: `DQN.compute_td_loss` equals the batch mean of
`(reward + (1 - terminated) * gamma * max_a Q(next_obs, a) - Q(obs, action))^2`.
The first conjunct is the claim's formula with the single network `Q`; the
second shows the loss with the two network copies distinguished — the
next-state Q values come only from the `no_grad` copy `F` and the
differentiated copy `G` enters only at `obs`; the third characterises
`listMax` as the maximum over actions. -/
theorem c6_dqn_td_loss {σ : Type} [Inhabited σ] (gamma : ℚ)
    (Q G F : σ → List ℚ) (obs : List σ) (action : List ℕ)
    (next_obs : List σ) (reward terminated : List ℚ) (B : ℕ) (hB : 1 ≤ B)
    (hobs : obs.length = B) (hact : action.length = B)
    (hnobs : next_obs.length = B) (hrew : reward.length = B)
    (hterm : terminated.length = B)
    (hvalid : ∀ i < B, action.getD i 0 < (Q (obs.getD i default)).length)
    (hQne : ∀ i < B, Q (next_obs.getD i default) ≠ []) :
    compute_td_loss gamma Q Q obs action next_obs reward terminated =
      (∑ i ∈ Finset.range B,
        (reward.getD i 0 + (1 - terminated.getD i 0) * gamma *
            listMax (Q (next_obs.getD i default)) -
          (Q (obs.getD i default)).getD (action.getD i 0) 0) ^ 2) / B ∧
    compute_td_loss gamma G F obs action next_obs reward terminated =
      (∑ i ∈ Finset.range B,
        (reward.getD i 0 + (1 - terminated.getD i 0) * gamma *
            listMax (F (next_obs.getD i default)) -
          (G (obs.getD i default)).getD (action.getD i 0) 0) ^ 2) / B ∧
    ∀ l : List ℚ, l ≠ [] → listMax l ∈ l ∧ ∀ x ∈ l, x ≤ listMax l := by
  have main : ∀ G' F' : σ → List ℚ,
      compute_td_loss gamma G' F' obs action next_obs reward terminated =
        (∑ i ∈ Finset.range B,
          (reward.getD i 0 + (1 - terminated.getD i 0) * gamma *
              listMax (F' (next_obs.getD i default)) -
            (G' (obs.getD i default)).getD (action.getD i 0) 0) ^ 2) / B := by
    intro G' F'
    rw [compute_td_loss]
    rw [mse_loss_eq _ _ B
      (by rw [zipWith3_length]; simp [hrew, hterm, hnobs])
      (by rw [List.length_zipWith]; simp [hobs, hact])]
    congr 1
    refine Finset.sum_congr rfl fun i hi => ?_
    have hi' : i < B := Finset.mem_range.mp hi
    have hqt : (zipWith3 (fun r nt m => r + nt * gamma * m) reward
        (terminated.map fun t => 1 - t)
        ((next_obs.map F').map listMax)).getD i 0 =
        reward.getD i 0 + (1 - terminated.getD i 0) * gamma *
          listMax (F' (next_obs.getD i default)) := by
      rw [List.getD_eq_getD_get?, zipWith3_get?,
        get?_eq_some_getD reward 0 i (by omega), List.get?_map,
        get?_eq_some_getD terminated 0 i (by omega), List.get?_map,
        List.get?_map, get?_eq_some_getD next_obs default i (by omega)]
      rfl
    have hqv : (List.zipWith (fun qs a => qs.getD a 0) (obs.map G')
        action).getD i 0 =
        (G' (obs.getD i default)).getD (action.getD i 0) 0 := by
      rw [List.getD_eq_getD_get?, List.get?_zipWith', List.get?_map,
        get?_eq_some_getD obs default i (by omega),
        get?_eq_some_getD action 0 i (by omega)]
      rfl
    rw [hqt, hqv]
  exact ⟨main Q Q, main G F, listMax_spec⟩

/-- Witness for C6 at a concrete input. -/
theorem c6_witness :
    compute_td_loss (1/2) (fun s : ℚ => [s, 2 * s])
        (fun s : ℚ => [s, 2 * s]) [1] [0] [3] [5] [0] =
      (∑ i ∈ Finset.range 1,
        (([5] : List ℚ).getD i 0 + (1 - ([0] : List ℚ).getD i 0) * (1/2) *
            listMax ((fun s : ℚ => [s, 2 * s]) (([3] : List ℚ).getD i 0)) -
          ((fun s : ℚ => [s, 2 * s]) (([1] : List ℚ).getD i 0)).getD
            (([0] : List ℕ).getD i 0) 0) ^ 2) / 1 ∧
    listMax [1, 2] ∈ ([1, 2] : List ℚ) := by
  have h := c6_dqn_td_loss (1/2) (fun s : ℚ => [s, 2 * s])
    (fun s : ℚ => [s, 2 * s]) (fun s : ℚ => [s, 2 * s]) [1] [0] [3] [5] [0] 1
    (by norm_num) (by norm_num) (by norm_num) (by norm_num) (by norm_num)
    (by norm_num)
    (by intro i hi
        have hi0 : i = 0 := by omega
        subst hi0
        norm_num)
    (by intro i hi
        have hi0 : i = 0 := by omega
        subst hi0
        exact List.cons_ne_nil _ _)
  exact ⟨h.1, (h.2.2 [1, 2] (List.cons_ne_nil _ _)).1⟩

/-! ## Modular arithmetic for the circular write index -/

theorem mod_pred (C d : ℕ) (hC : 0 < C) (hd : 1 ≤ d % C) :
    (d - 1) % C = d % C - 1 := by
  have hq : C * (d / C) + d % C = d := Nat.div_add_mod d C
  have hm0 : C * (d / C) % C = 0 := Nat.mul_mod_right _ _
  have hr : d % C < C := Nat.mod_lt _ hC
  have hd1 : d - 1 = (d % C - 1) + C * (d / C) := by
    generalize C * (d / C) = m at hq hm0
    generalize d % C = r at hq hr hd ⊢
    omega
  rw [hd1, Nat.add_mod, hm0, Nat.add_zero,
    Nat.mod_eq_of_lt (show d % C - 1 < C by omega),
    Nat.mod_eq_of_lt (show d % C - 1 < C by omega)]

theorem mul_pred_mod (C q : ℕ) (hC : 0 < C) (hq : 1 ≤ q) :
    (C * q - 1) % C = C - 1 := by
  have h2 : C * q = C * (q - 1) + C := by
    rw [← Nat.mul_succ]
    congr 1
    omega
  have h1 : C * q - 1 = (C - 1) + C * (q - 1) := by
    generalize C * (q - 1) = a at h2 ⊢
    generalize C * q = b at h2 ⊢
    omega
  rw [h1, Nat.add_mul_mod_self_left]
  exact Nat.mod_eq_of_lt (by omega)

theorem lastIdx_append_self (k C : ℕ) (hC : 0 < C) :
    lastIdx (k + 1) C (k % C) = k := by
  have hq : C * (k / C) + k % C = k := Nat.div_add_mod k C
  have hm0 : C * (k / C) % C = 0 := Nat.mul_mod_right _ _
  unfold lastIdx
  rw [Nat.add_sub_cancel,
    show k - k % C = C * (k / C) from by
      generalize C * (k / C) = m at hq hm0 ⊢
      generalize k % C = r at hq ⊢
      omega,
    hm0, Nat.sub_zero]

theorem lastIdx_succ_ne (k C j : ℕ) (hC : 0 < C) (hj : j < k) (hjC : j < C)
    (hne : j ≠ k % C) : lastIdx (k + 1) C j = lastIdx k C j := by
  have hd1 : 1 ≤ (k - j) % C := by
    rcases Nat.eq_zero_or_pos ((k - j) % C) with h0 | h0
    · exfalso
      obtain ⟨q, hq⟩ := Nat.dvd_of_mod_eq_zero h0
      have hkj : k = j + C * q := by omega
      have : k % C = j := by
        rw [hkj, Nat.add_mul_mod_self_left, Nat.mod_eq_of_lt hjC]
      exact hne this.symm
    · exact h0
  have hmp : (k - j - 1) % C = (k - j) % C - 1 := mod_pred C (k - j) hC hd1
  have hrC : (k - j) % C < C := Nat.mod_lt _ hC
  have hrle : (k - j) % C ≤ k - j := Nat.mod_le _ _
  unfold lastIdx
  rw [Nat.add_sub_cancel, show k - 1 - j = k - j - 1 from by omega, hmp]
  generalize (k - j) % C = r at hd1 hrC hrle ⊢
  omega

theorem lastIdx_lt (k C j : ℕ) (hj : j < k) : lastIdx k C j < k := by
  unfold lastIdx
  generalize (k - 1 - j) % C = r
  omega

theorem lastIdx_ge (k C j : ℕ) (hC : 0 < C) (hj : j < k) (hjC : j < C) :
    k ≤ lastIdx k C j + C := by
  have hrC : (k - 1 - j) % C < C := Nat.mod_lt _ hC
  unfold lastIdx
  generalize (k - 1 - j) % C = r at hrC ⊢
  omega

theorem lastIdx_oldest (k C : ℕ) (hC : 0 < C) (hk : C ≤ k) :
    lastIdx k C (k % C) = k - C := by
  have hq : C * (k / C) + k % C = k := Nat.div_add_mod k C
  have hq1 : 1 ≤ k / C := (Nat.one_le_div_iff hC).mpr hk
  have hr : k % C < C := Nat.mod_lt _ hC
  have h1 : k - 1 - k % C = C * (k / C) - 1 := by
    generalize C * (k / C) = m at hq ⊢
    generalize k % C = r at hq hr ⊢
    omega
  unfold lastIdx
  rw [h1, mul_pred_mod C (k / C) hC hq1]
  generalize k % C = r at hr ⊢
  omega

/-- Stepping the circular index: `((k-1) % C + 1) % C = k % C` for `k ≥ 1`,
stated over `ℤ` as it appears in `addOne`. -/
theorem next_slot_cast (k C : ℕ) (hC : 0 < C) (hk : 1 ≤ k) :
    ((((k - 1) % C : ℕ) : ℤ) + 1) % (C : ℤ) = ((k % C : ℕ) : ℤ) := by
  have h1 : ((((k - 1) % C : ℕ) : ℤ) + 1) = (((k - 1) % C + 1 : ℕ) : ℤ) := by
    push_cast
    ring
  rw [h1, ← Int.natCast_mod]
  congr 1
  rw [Nat.mod_add_mod, Nat.sub_add_cancel hk]

/-! ## Content of the circular write -/

theorem cyclicWriteFrom_length (C : ℕ) :
    ∀ (xs : List β) (i : ℕ) (acc : List (Option β)),
      (cyclicWriteFrom C i xs acc).length = acc.length := by
  intro xs
  induction xs with
  | nil => intro i acc; rfl
  | cons y ys ih =>
    intro i acc
    rw [cyclicWriteFrom, ih, List.length_set]

theorem cyclicWriteFrom_append (C : ℕ) (x : β) :
    ∀ (xs : List β) (i : ℕ) (acc : List (Option β)),
      cyclicWriteFrom C i (xs ++ [x]) acc =
        (cyclicWriteFrom C i xs acc).set ((i + xs.length) % C) (some x) := by
  intro xs
  induction xs with
  | nil => intro i acc; simp [cyclicWriteFrom]
  | cons y ys ih =>
    intro i acc
    show cyclicWriteFrom C (i + 1) (ys ++ [x]) (acc.set (i % C) (some y)) =
      (cyclicWriteFrom C (i + 1) ys (acc.set (i % C) (some y))).set
        ((i + (ys.length + 1)) % C) (some x)
    rw [ih, show i + 1 + ys.length = i + (ys.length + 1) from by omega]

theorem cyclicWrite_length (C : ℕ) (xs : List β) :
    (cyclicWrite C xs).length = C := by
  rw [cyclicWrite, cyclicWriteFrom_length, List.length_replicate]

theorem cyclicWrite_append (C : ℕ) (xs : List β) (x : β) :
    cyclicWrite C (xs ++ [x]) =
      (cyclicWrite C xs).set (xs.length % C) (some x) := by
  rw [cyclicWrite, cyclicWriteFrom_append, Nat.zero_add]
  rfl

theorem getD_replicate_none (C j : ℕ) :
    (List.replicate C (none : Option β)).getD j none = none := by
  rcases Nat.lt_or_ge j C with h | h
  · rw [List.getD_eq_getElem _ _ (by simpa using h)]
    simp
  · rw [List.getD_eq_default _ _ (by simpa using h)]

/-- Content of the slots after circularly writing `xs`: slot `j` holds the
most recently written element whose write ordinal is congruent to `j`
modulo the capacity, and `none` when no such write happened. -/
theorem cyclicWrite_getD (C : ℕ) (hC : 0 < C) (xs : List β) :
    ∀ j, (cyclicWrite C xs).getD j none = slotSpec xs C j := by
  induction xs using List.reverseRecOn with
  | nil =>
    intro j
    rw [show cyclicWrite C ([] : List β) = List.replicate C none from rfl,
      getD_replicate_none, slotSpec]
    simp
  | append_singleton xs x ih =>
    intro j
    rw [cyclicWrite_append]
    by_cases hj : j = xs.length % C
    · subst hj
      have hlt : xs.length % C < (cyclicWrite C xs).length := by
        rw [cyclicWrite_length]
        exact Nat.mod_lt _ hC
      have hcond : xs.length % C < min (xs.length + 1) C := by
        have h1 := Nat.mod_lt xs.length hC
        have h2 := Nat.mod_le xs.length C
        omega
      rw [List.getD_eq_getD_get?, List.get?_set_eq_of_lt _ hlt,
        Option.getD_some, slotSpec, List.length_append, List.length_singleton,
        if_pos hcond, lastIdx_append_self _ _ hC, List.get?_concat_length]
    · have hset : ((cyclicWrite C xs).set (xs.length % C) (some x)).getD j
          none = (cyclicWrite C xs).getD j none := by
        rw [List.getD_eq_getD_get?,
          List.get?_set_ne _ _ (Ne.symm hj), ← List.getD_eq_getD_get?]
      rw [hset, ih j, slotSpec, slotSpec, List.length_append,
        List.length_singleton]
      by_cases hjk : j < min xs.length C
      · have hcond : j < min (xs.length + 1) C := by omega
        rw [if_pos hcond, if_pos hjk,
          lastIdx_succ_ne xs.length C j hC (by omega) (by omega) hj,
          List.get?_append (lastIdx_lt xs.length C j (by omega))]
      · have hcond : ¬j < min (xs.length + 1) C := by
          intro hcond
          have hjlen : j = xs.length := by omega
          have hjC : xs.length < C := by omega
          exact hj (by rw [hjlen, Nat.mod_eq_of_lt hjC])
        rw [if_neg hcond, if_neg hjk]

/-! ## Characterisation of replay-buffer traces -/

theorem add_singleton_eq {α : Type} (b : ReplayBuffer α) (e : Experience α)
    (hne : b.num_envs = 1) :
    b.add [e] = ReplayBuffer.addOne { b with n_step := b.n_step + 1 } e := by
  rw [ReplayBuffer.add, hne]
  rfl

theorem addAll_append_singleton {α : Type} (b : ReplayBuffer α)
    (es : List (Experience α)) (e : Experience α) :
    ReplayBuffer.addAll b (es ++ [e]) =
      (ReplayBuffer.addAll b es).add [e] := by
  rw [ReplayBuffer.addAll, ReplayBuffer.addAll, List.foldl_append]
  rfl

/-- Full characterisation of a buffer reached from a fresh single-environment
buffer by a sequence of `add` calls: the configuration fields are unchanged,
`count = min k capacity`, `n_step = k`, `recent_idx` is the circular index
of the last write, and each storage list is the circular write of the
corresponding experience components. -/
theorem addAll_char {α : Type} (tf sbs C : ℕ) (hC : 0 < C)
    (es : List (Experience α)) (b : ReplayBuffer α)
    (hb : b = ReplayBuffer.addAll (ReplayBuffer.make tf sbs C 1) es) :
    b.training_freq = tf ∧ b.sampled_batch_size = sbs ∧ b.capacity = C ∧
    b.num_envs = 1 ∧ b.count = min es.length C ∧ b.n_step = es.length ∧
    b.recent_idx = (if es.length = 0 then (-1 : ℤ)
      else (((es.length - 1) % C : ℕ) : ℤ)) ∧
    b.obs = cyclicWrite C (es.map Experience.obs) ∧
    b.action = cyclicWrite C (es.map Experience.action) ∧
    b.next_obs = cyclicWrite C (es.map Experience.next_obs) ∧
    b.reward = cyclicWrite C (es.map Experience.reward) ∧
    b.terminated = cyclicWrite C (es.map Experience.terminated) := by
  subst hb
  induction es using List.reverseRecOn with
  | nil =>
    refine ⟨rfl, rfl, rfl, rfl, ?_, rfl, ?_, rfl, rfl, rfl, rfl, rfl⟩
    · simp [ReplayBuffer.addAll, ReplayBuffer.make, ReplayBuffer.reset]
    · simp [ReplayBuffer.addAll, ReplayBuffer.make, ReplayBuffer.reset]
  | append_singleton es e ih =>
    obtain ⟨htf, hsbs, hcap, hne, hcount, hns, hridx, hobs, hact, hnobs,
      hrew, hterm⟩ := ih
    have hstep : ReplayBuffer.addAll (ReplayBuffer.make tf sbs C 1)
        (es ++ [e]) =
        ReplayBuffer.addOne
          { ReplayBuffer.addAll (ReplayBuffer.make tf sbs C 1) es with
            n_step :=
              (ReplayBuffer.addAll (ReplayBuffer.make tf sbs C 1) es).n_step
                + 1 } e := by
      rw [addAll_append_singleton, add_singleton_eq _ _ hne]
    have hidx :
        ((ReplayBuffer.addAll (ReplayBuffer.make tf sbs C 1) es).recent_idx
            + 1) %
          (((ReplayBuffer.addAll (ReplayBuffer.make tf sbs C 1)
            es).capacity : ℕ) : ℤ) = ((es.length % C : ℕ) : ℤ) := by
      rw [hcap, hridx]
      rcases Nat.eq_zero_or_pos es.length with h0 | h1
      · rw [if_pos h0, h0]
        simp
      · rw [if_neg (by omega)]
        exact next_slot_cast es.length C hC h1
    rw [hstep]
    rw [ReplayBuffer.addOne]
    refine ⟨htf, hsbs, hcap, hne, ?_, ?_, ?_, ?_, ?_, ?_, ?_, ?_⟩
    · show min
        ((ReplayBuffer.addAll (ReplayBuffer.make tf sbs C 1) es).count + 1)
        (ReplayBuffer.addAll (ReplayBuffer.make tf sbs C 1) es).capacity =
          min (es ++ [e]).length C
      rw [hcount, hcap, List.length_append, List.length_singleton]
      omega
    · show (ReplayBuffer.addAll (ReplayBuffer.make tf sbs C 1) es).n_step + 1
        = (es ++ [e]).length
      rw [hns, List.length_append, List.length_singleton]
    · show ((ReplayBuffer.addAll (ReplayBuffer.make tf sbs C 1)
          es).recent_idx + 1) %
        (((ReplayBuffer.addAll (ReplayBuffer.make tf sbs C 1)
          es).capacity : ℕ) : ℤ) =
        if (es ++ [e]).length = 0 then (-1 : ℤ)
        else ((((es ++ [e]).length - 1) % C : ℕ) : ℤ)
      rw [hidx, List.length_append, List.length_singleton,
        if_neg (by omega), Nat.add_sub_cancel]
    · show (ReplayBuffer.addAll (ReplayBuffer.make tf sbs C 1) es).obs.set
          (((ReplayBuffer.addAll (ReplayBuffer.make tf sbs C 1)
              es).recent_idx + 1) %
            (((ReplayBuffer.addAll (ReplayBuffer.make tf sbs C 1)
              es).capacity : ℕ) : ℤ)).toNat (some e.obs) =
        cyclicWrite C ((es ++ [e]).map Experience.obs)
      rw [hidx, Int.toNat_natCast, hobs, List.map_append, List.map_singleton,
        cyclicWrite_append, List.length_map]
    · show (ReplayBuffer.addAll (ReplayBuffer.make tf sbs C 1) es).action.set
          (((ReplayBuffer.addAll (ReplayBuffer.make tf sbs C 1)
              es).recent_idx + 1) %
            (((ReplayBuffer.addAll (ReplayBuffer.make tf sbs C 1)
              es).capacity : ℕ) : ℤ)).toNat (some e.action) =
        cyclicWrite C ((es ++ [e]).map Experience.action)
      rw [hidx, Int.toNat_natCast, hact, List.map_append, List.map_singleton,
        cyclicWrite_append, List.length_map]
    · show (ReplayBuffer.addAll (ReplayBuffer.make tf sbs C 1)
          es).next_obs.set
          (((ReplayBuffer.addAll (ReplayBuffer.make tf sbs C 1)
              es).recent_idx + 1) %
            (((ReplayBuffer.addAll (ReplayBuffer.make tf sbs C 1)
              es).capacity : ℕ) : ℤ)).toNat (some e.next_obs) =
        cyclicWrite C ((es ++ [e]).map Experience.next_obs)
      rw [hidx, Int.toNat_natCast, hnobs, List.map_append,
        List.map_singleton, cyclicWrite_append, List.length_map]
    · show (ReplayBuffer.addAll (ReplayBuffer.make tf sbs C 1) es).reward.set
          (((ReplayBuffer.addAll (ReplayBuffer.make tf sbs C 1)
              es).recent_idx + 1) %
            (((ReplayBuffer.addAll (ReplayBuffer.make tf sbs C 1)
              es).capacity : ℕ) : ℤ)).toNat (some e.reward) =
        cyclicWrite C ((es ++ [e]).map Experience.reward)
      rw [hidx, Int.toNat_natCast, hrew, List.map_append, List.map_singleton,
        cyclicWrite_append, List.length_map]
    · show (ReplayBuffer.addAll (ReplayBuffer.make tf sbs C 1)
          es).terminated.set
          (((ReplayBuffer.addAll (ReplayBuffer.make tf sbs C 1)
              es).recent_idx + 1) %
            (((ReplayBuffer.addAll (ReplayBuffer.make tf sbs C 1)
              es).capacity : ℕ) : ℤ)).toNat (some e.terminated) =
        cyclicWrite C ((es ++ [e]).map Experience.terminated)
      rw [hidx, Int.toNat_natCast, hterm, List.map_append,
        List.map_singleton, cyclicWrite_append, List.length_map]

/-- C2: for a single-environment buffer of capacity `C ≥ 1`, each `add`
stores the experience at index `(recent_idx + 1) % C` in all five lists and
sets `count = min (count + 1) C`; on any buffer reached by a sequence of
adds, `count ≤ C`; and once `C` experiences have been added, the slot the
next `add` writes holds the oldest experience still stored (ordinal
`k - C`, every stored ordinal being `≥ k - C`), and the next `add`
overwrites it. -/
theorem c2_replay_buffer_circular_add {α : Type} (tf sbs C : ℕ)
    (hC : 1 ≤ C) (es : List (Experience α)) (e : Experience α)
    (b : ReplayBuffer α)
    (hb : b = ReplayBuffer.addAll (ReplayBuffer.make tf sbs C 1) es) :
    (∀ b' : ReplayBuffer α, b'.num_envs = 1 → b'.capacity = C →
      (b'.add [e]).recent_idx = (b'.recent_idx + 1) % (C : ℤ) ∧
      (b'.add [e]).count = min (b'.count + 1) C ∧
      (b'.add [e]).obs =
        b'.obs.set ((b'.recent_idx + 1) % (C : ℤ)).toNat (some e.obs) ∧
      (b'.add [e]).action =
        b'.action.set ((b'.recent_idx + 1) % (C : ℤ)).toNat (some e.action) ∧
      (b'.add [e]).next_obs =
        b'.next_obs.set ((b'.recent_idx + 1) % (C : ℤ)).toNat
          (some e.next_obs) ∧
      (b'.add [e]).reward =
        b'.reward.set ((b'.recent_idx + 1) % (C : ℤ)).toNat (some e.reward) ∧
      (b'.add [e]).terminated =
        b'.terminated.set ((b'.recent_idx + 1) % (C : ℤ)).toNat
          (some e.terminated)) ∧
    b.count ≤ C ∧
    (C ≤ es.length →
      b.obs.getD ((b.recent_idx + 1) % (C : ℤ)).toNat none =
        (es.get? (es.length - C)).map Experience.obs ∧
      (∀ j < C, ∃ i, es.length - C ≤ i ∧ i < es.length ∧
        b.obs.getD j none = (es.get? i).map Experience.obs) ∧
      (b.add [e]).obs.getD ((b.recent_idx + 1) % (C : ℤ)).toNat none =
        some e.obs) := by
  have hCpos : 0 < C := hC
  obtain ⟨htf, hsbs, hcap, hne, hcount, hns, hridx, hobs, hact, hnobs, hrew,
    hterm⟩ := addAll_char tf sbs C hCpos es b hb
  refine ⟨?_, ?_, ?_⟩
  · intro b' h1 h2
    rw [add_singleton_eq _ _ h1, ReplayBuffer.addOne]
    refine ⟨by simp [h2], by simp [h2], by simp [h2], by simp [h2],
      by simp [h2], by simp [h2], by simp [h2]⟩
  · rw [hcount]
    omega
  · intro hk
    have hk1 : 1 ≤ es.length := le_trans hC hk
    have hslot : ((b.recent_idx + 1) % (C : ℤ)).toNat = es.length % C := by
      rw [hridx, if_neg (by omega), next_slot_cast es.length C hCpos hk1,
        Int.toNat_natCast]
    refine ⟨?_, ?_, ?_⟩
    · rw [hslot, hobs, cyclicWrite_getD C hCpos, slotSpec, List.length_map,
        if_pos (by
          have := Nat.mod_lt es.length hCpos
          omega),
        lastIdx_oldest es.length C hCpos hk, List.get?_map]
    · intro j hj
      refine ⟨lastIdx es.length C j, ?_, lastIdx_lt es.length C j (by omega),
        ?_⟩
      · have := lastIdx_ge es.length C j hCpos (by omega) hj
        omega
      · rw [hobs, cyclicWrite_getD C hCpos, slotSpec, List.length_map,
          if_pos (by omega), List.get?_map]
    · rw [add_singleton_eq _ _ hne, ReplayBuffer.addOne]
      have hlen : ((b.recent_idx + 1) %
          ((b.capacity : ℕ) : ℤ)).toNat < b.obs.length := by
        rw [hcap, hslot, hobs, cyclicWrite_length]
        exact Nat.mod_lt _ hCpos
      show (b.obs.set ((b.recent_idx + 1) % ((b.capacity : ℕ) : ℤ)).toNat
          (some e.obs)).getD ((b.recent_idx + 1) % (C : ℤ)).toNat none =
        some e.obs
      rw [hcap] at hlen ⊢
      rw [List.getD_eq_getD_get?, List.get?_set_eq_of_lt _ hlen,
        Option.getD_some]

/-- Witness for C2 at a concrete input (capacity 2, three adds). -/
theorem c2_witness :
    (ReplayBuffer.addAll (ReplayBuffer.make 1 1 2 1)
      [(⟨1, 1, 1, 1, 1⟩ : Experience ℚ), ⟨2, 2, 2, 2, 2⟩,
        ⟨3, 3, 3, 3, 3⟩]).count ≤ 2 ∧
    (ReplayBuffer.addAll (ReplayBuffer.make 1 1 2 1)
        [(⟨1, 1, 1, 1, 1⟩ : Experience ℚ), ⟨2, 2, 2, 2, 2⟩,
          ⟨3, 3, 3, 3, 3⟩]).obs.getD
        (((ReplayBuffer.addAll (ReplayBuffer.make 1 1 2 1)
          [(⟨1, 1, 1, 1, 1⟩ : Experience ℚ), ⟨2, 2, 2, 2, 2⟩,
            ⟨3, 3, 3, 3, 3⟩]).recent_idx + 1) % (2 : ℤ)).toNat none =
      (([(⟨1, 1, 1, 1, 1⟩ : Experience ℚ), ⟨2, 2, 2, 2, 2⟩,
        ⟨3, 3, 3, 3, 3⟩].get? (3 - 2)).map Experience.obs) ∧
    ((ReplayBuffer.addAll (ReplayBuffer.make 1 1 2 1)
        [(⟨1, 1, 1, 1, 1⟩ : Experience ℚ), ⟨2, 2, 2, 2, 2⟩,
          ⟨3, 3, 3, 3, 3⟩]).add [⟨4, 4, 4, 4, 4⟩]).obs.getD
        (((ReplayBuffer.addAll (ReplayBuffer.make 1 1 2 1)
          [(⟨1, 1, 1, 1, 1⟩ : Experience ℚ), ⟨2, 2, 2, 2, 2⟩,
            ⟨3, 3, 3, 3, 3⟩]).recent_idx + 1) % (2 : ℤ)).toNat none =
      some (4 : ℚ) := by
  have h := c2_replay_buffer_circular_add 1 1 2 (by norm_num)
    [(⟨1, 1, 1, 1, 1⟩ : Experience ℚ), ⟨2, 2, 2, 2, 2⟩, ⟨3, 3, 3, 3, 3⟩]
    ⟨4, 4, 4, 4, 4⟩ _ rfl
  exact ⟨h.2.1, (h.2.2 (by norm_num)).1, (h.2.2 (by norm_num)).2.2⟩

/-! ## Replay-buffer invariant -/

theorem addOne_invStrong {α : Type} (b : ReplayBuffer α) (e : Experience α)
    (hinv : bufInvStrong b) : bufInvStrong (b.addOne e) := by
  obtain ⟨hcap1, hcnt, hlo, hla, hln, hlr, hlt, hrlo, hrhi, hlink, hfill⟩ :=
    hinv
  have hCne : ((b.capacity : ℕ) : ℤ) ≠ 0 := by
    exact_mod_cast Nat.pos_iff_ne_zero.mp hcap1
  have hCpos : (0 : ℤ) < ((b.capacity : ℕ) : ℤ) := by exact_mod_cast hcap1
  have hidx0 : 0 ≤ (b.recent_idx + 1) % ((b.capacity : ℕ) : ℤ) :=
    Int.emod_nonneg _ hCne
  have hidxC : (b.recent_idx + 1) % ((b.capacity : ℕ) : ℤ) <
      ((b.capacity : ℕ) : ℤ) := Int.emod_lt_of_pos _ hCpos
  have hidxnat : ((b.recent_idx + 1) % ((b.capacity : ℕ) : ℤ)).toNat <
      b.capacity := by omega
  have hidxlink : b.count < b.capacity →
      ((b.recent_idx + 1) % ((b.capacity : ℕ) : ℤ)).toNat = b.count := by
    intro hlt'
    rw [hlink hlt']
    have : ((b.count : ℕ) : ℤ) - 1 + 1 = ((b.count : ℕ) : ℤ) := by ring
    rw [this, Int.emod_eq_of_lt (by omega) (by exact_mod_cast hlt')]
    omega
  have hfill' : ∀ (l : List (Option α)) (v : α), l.length = b.capacity →
      (∀ j < b.count, (l.getD j none).isSome) →
      ∀ j < min (b.count + 1) b.capacity,
        ((l.set ((b.recent_idx + 1) % ((b.capacity : ℕ) : ℤ)).toNat
          (some v)).getD j none).isSome := by
    intro l v hl hfl j hj
    by_cases hje :
        j = ((b.recent_idx + 1) % ((b.capacity : ℕ) : ℤ)).toNat
    · subst hje
      rw [List.getD_eq_getD_get?,
        List.get?_set_eq_of_lt _ (by omega), Option.getD_some]
      rfl
    · rw [List.getD_eq_getD_get?, List.get?_set_ne _ _ (Ne.symm hje),
        ← List.getD_eq_getD_get?]
      rcases Nat.lt_or_ge b.count b.capacity with hcc | hcc
      · exact hfl j (by
          have := hidxlink hcc
          omega)
      · exact hfl j (by omega)
  have hfo : ∀ j < b.count, (b.obs.getD j none).isSome :=
    fun j h => (hfill j h).1
  have hfa : ∀ j < b.count, (b.action.getD j none).isSome :=
    fun j h => (hfill j h).2.1
  have hfn : ∀ j < b.count, (b.next_obs.getD j none).isSome :=
    fun j h => (hfill j h).2.2.1
  have hfr : ∀ j < b.count, (b.reward.getD j none).isSome :=
    fun j h => (hfill j h).2.2.2.1
  have hft : ∀ j < b.count, (b.terminated.getD j none).isSome :=
    fun j h => (hfill j h).2.2.2.2
  rw [ReplayBuffer.addOne]
  refine ⟨hcap1,
    show min (b.count + 1) b.capacity ≤ b.capacity from by omega,
    show (b.obs.set _ _).length = b.capacity from by
      rw [List.length_set, hlo],
    show (b.action.set _ _).length = b.capacity from by
      rw [List.length_set, hla],
    show (b.next_obs.set _ _).length = b.capacity from by
      rw [List.length_set, hln],
    show (b.reward.set _ _).length = b.capacity from by
      rw [List.length_set, hlr],
    show (b.terminated.set _ _).length = b.capacity from by
      rw [List.length_set, hlt],
    show (-1 : ℤ) ≤ (b.recent_idx + 1) % ((b.capacity : ℕ) : ℤ) from
      le_trans (by norm_num) hidx0,
    show (b.recent_idx + 1) % ((b.capacity : ℕ) : ℤ) <
      ((b.capacity : ℕ) : ℤ) from hidxC, ?_, ?_⟩
  · show min (b.count + 1) b.capacity < b.capacity →
      (b.recent_idx + 1) % ((b.capacity : ℕ) : ℤ) =
        ((min (b.count + 1) b.capacity : ℕ) : ℤ) - 1
    intro hlt'
    have hc2 : b.count < b.capacity := by omega
    have h1 := hidxlink hc2
    have h2 : min (b.count + 1) b.capacity = b.count + 1 := by omega
    rw [h2]
    push_cast
    omega
  · show ∀ j < min (b.count + 1) b.capacity, _
    intro j hj
    exact ⟨hfill' b.obs e.obs hlo hfo j hj,
      hfill' b.action e.action hla hfa j hj,
      hfill' b.next_obs e.next_obs hln hfn j hj,
      hfill' b.reward e.reward hlr hfr j hj,
      hfill' b.terminated e.terminated hlt hft j hj⟩

theorem foldl_addOne_invStrong {α : Type} :
    ∀ (l : List (Experience α)) (b : ReplayBuffer α), bufInvStrong b →
      bufInvStrong (l.foldl ReplayBuffer.addOne b) := by
  intro l
  induction l with
  | nil => intro b hinv; exact hinv
  | cons e es ih => intro b hinv; exact ih _ (addOne_invStrong b e hinv)

/-- C9: `reset` establishes and `add` / `sample` preserve the strengthened
buffer invariant; the strengthened invariant implies the claimed one
(`count ≤ capacity` and slots `0..count-1` of all five storage lists
filled); and under the invariant, every index drawn by `_sample_idxs` is a
filled slot, so `sample` never reads a `None` entry. -/
theorem c9_replay_buffer_invariant {α : Type} :
    (∀ b : ReplayBuffer α, 1 ≤ b.capacity → bufInvStrong b.reset) ∧
    (∀ (b : ReplayBuffer α) (rows : List (Experience α)),
      bufInvStrong b → bufInvStrong (b.add rows)) ∧
    (∀ (b : ReplayBuffer α) (draws : ℕ → ℕ),
      bufInvStrong b → bufInvStrong (b.sample draws).1) ∧
    (∀ b : ReplayBuffer α, bufInvStrong b → bufInv b) ∧
    (∀ (b : ReplayBuffer α) (draws : ℕ → ℕ), bufInvStrong b →
      1 ≤ b.count → (∀ i < b.sampled_batch_size, draws i < b.count) →
      (∀ i ∈ b.sample_idxs draws, i < b.count) ∧
      (∀ x ∈ (b.sample draws).2.1, x.isSome) ∧
      (∀ x ∈ (b.sample draws).2.2.1, x.isSome) ∧
      (∀ x ∈ (b.sample draws).2.2.2.1, x.isSome) ∧
      (∀ x ∈ (b.sample draws).2.2.2.2.1, x.isSome) ∧
      (∀ x ∈ (b.sample draws).2.2.2.2.2, x.isSome)) := by
  refine ⟨?_, ?_, ?_, ?_, ?_⟩
  · intro b hcap
    refine ⟨hcap, Nat.zero_le _,
      List.length_replicate _ _, List.length_replicate _ _,
      List.length_replicate _ _, List.length_replicate _ _,
      List.length_replicate _ _, le_rfl, ?_,
      fun _ => by
        show (-1 : ℤ) = ((0 : ℕ) : ℤ) - 1
        norm_num,
      fun j hj => absurd (show j < 0 from hj) (by omega)⟩
    have h1 : (1 : ℤ) ≤ ((b.capacity : ℕ) : ℤ) := by exact_mod_cast hcap
    show (-1 : ℤ) < ((b.capacity : ℕ) : ℤ)
    omega
  · intro b rows hinv
    exact foldl_addOne_invStrong (rows.take b.num_envs) _ hinv
  · intro b draws hinv
    exact hinv
  · intro b hinv
    exact ⟨hinv.2.1, hinv.2.2.2.2.2.2.2.2.2.2⟩
  · intro b draws hinv hcount hdraws
    have hfill := hinv.2.2.2.2.2.2.2.2.2.2
    have hbatch : ∀ l : List (Option α),
        (∀ j < b.count, (l.getD j none).isSome) →
        ∀ x ∈ ReplayBuffer.get_batch_tensor l (b.sample_idxs draws),
          x.isSome := by
      intro l hf x hx
      rw [ReplayBuffer.get_batch_tensor] at hx
      obtain ⟨i, hi, rfl⟩ := List.mem_map.mp hx
      rw [ReplayBuffer.sample_idxs] at hi
      obtain ⟨j, hj, rfl⟩ := List.mem_map.mp hi
      exact hf (draws j) (hdraws j (List.mem_range.mp hj))
    refine ⟨?_, hbatch b.obs (fun j h => (hfill j h).1),
      hbatch b.action (fun j h => (hfill j h).2.1),
      hbatch b.next_obs (fun j h => (hfill j h).2.2.1),
      hbatch b.reward (fun j h => (hfill j h).2.2.2.1),
      hbatch b.terminated (fun j h => (hfill j h).2.2.2.2)⟩
    intro i hi
    rw [ReplayBuffer.sample_idxs] at hi
    obtain ⟨j, hj, rfl⟩ := List.mem_map.mp hi
    exact hdraws j (List.mem_range.mp hj)

/-- Witness for C9 at a concrete input. -/
theorem c9_witness :
    bufInvStrong ((ReplayBuffer.make 1 1 2 1 : ReplayBuffer ℚ).add
      [⟨1, 1, 1, 1, 1⟩]) ∧
    bufInv ((ReplayBuffer.make 1 1 2 1 : ReplayBuffer ℚ).add
      [⟨1, 1, 1, 1, 1⟩]) := by
  have h := c9_replay_buffer_invariant (α := ℚ)
  have h0 : bufInvStrong (ReplayBuffer.make 1 1 2 1 : ReplayBuffer ℚ) :=
    h.1 _ (by norm_num)
  have h1 := h.2.1 (ReplayBuffer.make 1 1 2 1) [⟨1, 1, 1, 1, 1⟩] h0
  exact ⟨h1, h.2.2.2.1 _ h1⟩

/-- C3: with the random draws of `np.random.randint(count, size)` abstracted
as the oracle stream `draws` (each value uniform on `[0, count)` by the
numpy contract, stated as the bound hypothesis), `_sample_idxs` returns
exactly the `sampled_batch_size` drawn indices in draw order, each in
`{0, ..., count-1}`, and `sample` returns exactly the stored entries at
those indices as the five batches `obs, action, next_obs, reward,
terminated`, in that order and in draw order. -/
theorem c3_replay_buffer_uniform_sample {α : Type} (b : ReplayBuffer α)
    (draws : ℕ → ℕ) (hcount : 1 ≤ b.count)
    (hdraws : ∀ i < b.sampled_batch_size, draws i < b.count) :
    (b.sample_idxs draws).length = b.sampled_batch_size ∧
    (∀ i < b.sampled_batch_size,
      (b.sample_idxs draws).get? i = some (draws i)) ∧
    (∀ i ∈ b.sample_idxs draws, i < b.count) ∧
    (b.sample draws).2.1 =
      (b.sample_idxs draws).map (fun i => b.obs.getD i none) ∧
    (b.sample draws).2.2.1 =
      (b.sample_idxs draws).map (fun i => b.action.getD i none) ∧
    (b.sample draws).2.2.2.1 =
      (b.sample_idxs draws).map (fun i => b.next_obs.getD i none) ∧
    (b.sample draws).2.2.2.2.1 =
      (b.sample_idxs draws).map (fun i => b.reward.getD i none) ∧
    (b.sample draws).2.2.2.2.2 =
      (b.sample_idxs draws).map (fun i => b.terminated.getD i none) ∧
    ∀ i < b.sampled_batch_size,
      ((b.sample draws).2.1).get? i = some (b.obs.getD (draws i) none) ∧
      ((b.sample draws).2.2.1).get? i =
        some (b.action.getD (draws i) none) ∧
      ((b.sample draws).2.2.2.1).get? i =
        some (b.next_obs.getD (draws i) none) ∧
      ((b.sample draws).2.2.2.2.1).get? i =
        some (b.reward.getD (draws i) none) ∧
      ((b.sample draws).2.2.2.2.2).get? i =
        some (b.terminated.getD (draws i) none) := by
  have hmem : ∀ i ∈ b.sample_idxs draws, i < b.count := by
    intro i hi
    rw [ReplayBuffer.sample_idxs] at hi
    obtain ⟨j, hj, rfl⟩ := List.mem_map.mp hi
    exact hdraws j (List.mem_range.mp hj)
  have hpt : ∀ (l : List (Option α)) (i : ℕ), i < b.sampled_batch_size →
      (ReplayBuffer.get_batch_tensor l (b.sample_idxs draws)).get? i =
        some (l.getD (draws i) none) := by
    intro l i hi
    rw [ReplayBuffer.get_batch_tensor, List.get?_map,
      ReplayBuffer.sample_idxs, List.get?_map, List.get?_range hi]
    rfl
  refine ⟨?_, ?_, hmem, rfl, rfl, rfl, rfl, rfl, ?_⟩
  · rw [ReplayBuffer.sample_idxs, List.length_map, List.length_range]
  · intro i hi
    rw [ReplayBuffer.sample_idxs, List.get?_map, List.get?_range hi]
    rfl
  · intro i hi
    exact ⟨hpt b.obs i hi, hpt b.action i hi, hpt b.next_obs i hi,
      hpt b.reward i hi, hpt b.terminated i hi⟩

/-- Witness for C3 at a concrete buffer (count 2, batch size 2, identity
draws). -/
theorem c3_witness :
    ((⟨1, 2, 3, 1, 0, 2, 1, [some 1, some 2, none], [some 3, some 4, none],
      [some 5, some 6, none], [some 7, some 8, none],
      [some 0, some 0, none]⟩ : ReplayBuffer ℚ).sample_idxs
        (fun i => i)).length = 2 ∧
    (((⟨1, 2, 3, 1, 0, 2, 1, [some 1, some 2, none], [some 3, some 4, none],
      [some 5, some 6, none], [some 7, some 8, none],
      [some 0, some 0, none]⟩ : ReplayBuffer ℚ).sample
        (fun i => i)).2.1).get? 0 =
      some (([some 1, some 2, none] : List (Option ℚ)).getD 0 none) := by
  have h := c3_replay_buffer_uniform_sample
    (⟨1, 2, 3, 1, 0, 2, 1, [some 1, some 2, none], [some 3, some 4, none],
      [some 5, some 6, none], [some 7, some 8, none],
      [some 0, some 0, none]⟩ : ReplayBuffer ℚ) (fun i => i)
    (by norm_num) (fun i hi => hi)
  exact ⟨h.1, (h.2.2.2.2.2.2.2.2 0 (by norm_num)).1⟩

/-! ## DQN training gating -/

theorem foldl_addOne_fields {α : Type} :
    ∀ (rows : List (Experience α)) (b : ReplayBuffer α),
      (rows.foldl ReplayBuffer.addOne b).training_freq = b.training_freq ∧
      (rows.foldl ReplayBuffer.addOne b).sampled_batch_size =
        b.sampled_batch_size ∧
      (rows.foldl ReplayBuffer.addOne b).n_step = b.n_step ∧
      (rows.foldl ReplayBuffer.addOne b).count ≤ b.count + rows.length := by
  intro rows
  induction rows with
  | nil => intro b; exact ⟨rfl, rfl, rfl, by simp⟩
  | cons e es ih =>
    intro b
    have h := ih (b.addOne e)
    have hcnt : (b.addOne e).count ≤ b.count + 1 := by
      rw [ReplayBuffer.addOne]
      show min (b.count + 1) b.capacity ≤ b.count + 1
      omega
    refine ⟨h.1, h.2.1, h.2.2.1, ?_⟩
    have h1 : (List.foldl ReplayBuffer.addOne (b.addOne e) es).count ≤
        (b.addOne e).count + es.length := h.2.2.2
    rw [List.foldl_cons, List.length_cons]
    omega

theorem add_fields {α : Type} (b : ReplayBuffer α)
    (rows : List (Experience α)) :
    (b.add rows).training_freq = b.training_freq ∧
    (b.add rows).sampled_batch_size = b.sampled_batch_size ∧
    (b.add rows).n_step = b.n_step + 1 ∧
    (b.add rows).count ≤ b.count + rows.length := by
  have h := foldl_addOne_fields (rows.take b.num_envs)
    { b with n_step := b.n_step + 1 }
  have h2 : (rows.take b.num_envs).length ≤ rows.length := by
    rw [List.length_take]
    omega
  rw [ReplayBuffer.add]
  refine ⟨h.1, h.2.1, h.2.2.1, ?_⟩
  have h1 : (List.foldl ReplayBuffer.addOne
      { b with n_step := b.n_step + 1 } (rows.take b.num_envs)).count ≤
      b.count + (rows.take b.num_envs).length := h.2.2.2
  omega

theorem trainBuf_fields {α : Type} :
    ∀ (epoch : ℕ) (b : ReplayBuffer α),
      (trainBuf epoch b).training_freq = b.training_freq ∧
      (trainBuf epoch b).sampled_batch_size = b.sampled_batch_size ∧
      (trainBuf epoch b).count = b.count := by
  intro epoch
  induction epoch with
  | zero => intro b; exact ⟨rfl, rfl, rfl⟩
  | succ e ih =>
    intro b
    have h := ih ((b.sample fun _ => 0).1)
    exact ⟨h.1, h.2.1, h.2.2⟩

theorem trainBuf_n_step {α : Type} :
    ∀ (epoch : ℕ) (b : ReplayBuffer α), 1 ≤ epoch →
      (trainBuf epoch b).n_step = 0 := by
  intro epoch
  induction epoch with
  | zero => intro b h; omega
  | succ e ih =>
    intro b _
    rcases Nat.eq_zero_or_pos e with h0 | h1
    · subst h0
      rfl
    · exact ih _ h1

theorem dqnUpdate_fst {α : Type} (epoch : ℕ) (b : ReplayBuffer α)
    (e : Experience α) :
    (dqnUpdate epoch b e).1 =
      if (b.add [e]).can_sample then trainBuf epoch (b.add [e])
      else b.add [e] := by
  by_cases h : (b.add [e]).can_sample <;> simp [dqnUpdate, h]

theorem dqnUpdate_snd {α : Type} (epoch : ℕ) (b : ReplayBuffer α)
    (e : Experience α) :
    (dqnUpdate epoch b e).2 = true ↔ (b.add [e]).can_sample := by
  by_cases h : (b.add [e]).can_sample <;> simp [dqnUpdate, h]

theorem dqnUpdate_fields {α : Type} (epoch : ℕ) (b : ReplayBuffer α)
    (e : Experience α) :
    (dqnUpdate epoch b e).1.training_freq = b.training_freq ∧
    (dqnUpdate epoch b e).1.sampled_batch_size = b.sampled_batch_size ∧
    (dqnUpdate epoch b e).1.count ≤ b.count + 1 := by
  rw [dqnUpdate_fst]
  have ha := add_fields b [e]
  by_cases h : (b.add [e]).can_sample
  · rw [if_pos h]
    have ht := trainBuf_fields epoch (b.add [e])
    refine ⟨by rw [ht.1, ha.1], by rw [ht.2.1, ha.2.1], ?_⟩
    rw [ht.2.2]
    simpa using ha.2.2.2
  · rw [if_neg h]
    exact ⟨ha.1, ha.2.1, by simpa using ha.2.2.2⟩

theorem dqnState_append {α : Type} (epoch : ℕ) (b : ReplayBuffer α)
    (l1 l2 : List (Experience α)) :
    dqnState epoch b (l1 ++ l2) = dqnState epoch (dqnState epoch b l1) l2 := by
  rw [dqnState, dqnState, dqnState, List.foldl_append]

theorem dqnState_take_succ {α : Type} (epoch : ℕ) (b : ReplayBuffer α)
    (es : List (Experience α)) (i : ℕ) (e : Experience α)
    (he : es.get? i = some e) :
    dqnState epoch b (es.take (i + 1)) =
      (dqnUpdate epoch (dqnState epoch b (es.take i)) e).1 := by
  have he' : es[i]? = some e := by
    rw [← List.get?_eq_getElem?]
    exact he
  rw [List.take_succ, he', dqnState_append]
  rfl

theorem dqnState_fields {α : Type} (epoch : ℕ) :
    ∀ (es : List (Experience α)) (b : ReplayBuffer α),
      (dqnState epoch b es).training_freq = b.training_freq ∧
      (dqnState epoch b es).sampled_batch_size = b.sampled_batch_size ∧
      (dqnState epoch b es).count ≤ b.count + es.length := by
  intro es
  induction es with
  | nil => intro b; exact ⟨rfl, rfl, by simp [dqnState]⟩
  | cons e es ih =>
    intro b
    have h := ih (dqnUpdate epoch b e).1
    have hu := dqnUpdate_fields epoch b e
    refine ⟨by rw [show dqnState epoch b (e :: es) =
        dqnState epoch (dqnUpdate epoch b e).1 es from rfl, h.1, hu.1],
      by rw [show dqnState epoch b (e :: es) =
        dqnState epoch (dqnUpdate epoch b e).1 es from rfl, h.2.1, hu.2.1],
      ?_⟩
    rw [show dqnState epoch b (e :: es) =
      dqnState epoch (dqnUpdate epoch b e).1 es from rfl]
    have h1 := h.2.2
    have h2 := hu.2.2
    simp only [List.length_cons]
    omega

theorem dqnRun_get? {α : Type} (epoch : ℕ) :
    ∀ (es : List (Experience α)) (b : ReplayBuffer α) (i : ℕ),
      ((dqnRun epoch b es).2).get? i =
        (es.get? i).map
          (fun e => (dqnUpdate epoch (dqnState epoch b (es.take i)) e).2) := by
  intro es
  induction es with
  | nil => intro b i; simp [dqnRun]
  | cons e es ih =>
    intro b i
    cases i with
    | zero => simp [dqnRun, dqnState]
    | succ i =>
      show ((dqnRun epoch (dqnUpdate epoch b e).1 es).2).get? i = _
      rw [ih (dqnUpdate epoch b e).1 i]
      rfl

/-- C7 counterexample: with `epoch = 0` the body of `DQN.train` runs zero
times, so `sample` is never called and `n_step` is never reset. With
`training_freq = 2`, `sampled_batch_size = 1`, `capacity = 4` and three
updates, `train` is invoked at steps 1 and 2 (0-indexed): two consecutive
training invocations with only `1 < training_freq` experience added in
between, refuting the claim as stated. -/
theorem c7_counterexample :
    (dqnRun 0 (ReplayBuffer.make 2 1 4 1 : ReplayBuffer ℚ)
      [⟨1, 1, 1, 1, 1⟩, ⟨2, 2, 2, 2, 2⟩, ⟨3, 3, 3, 3, 3⟩]).2 =
      [false, true, true] ∧
    (2 : ℕ) - 1 < (ReplayBuffer.make 2 1 4 1 : ReplayBuffer ℚ).training_freq
    := by
  constructor
  · rfl
  · decide

/-- C7 (amended: provided the configured `epoch` is at least 1, so that
`train` actually calls `sample`): `DQN.update` invokes `train` exactly when
`can_sample` holds after the add; `can_sample` holds iff
`count ≥ sampled_batch_size` and `n_step ≥ training_freq`; `sample` resets
`n_step` to 0; consequently, on any update trace from a fresh
single-environment buffer, at least `training_freq` experiences are added
between consecutive `train` invocations, and `train` never runs before
`sampled_batch_size` experiences are stored. -/
theorem c7_dqn_training_gated {α : Type} (tf sbs C epoch : ℕ)
    (hep : 1 ≤ epoch) (es : List (Experience α)) (b0 : ReplayBuffer α)
    (hb0 : b0 = ReplayBuffer.make tf sbs C 1) :
    (∀ (b : ReplayBuffer α) (e : Experience α),
      (dqnUpdate epoch b e).2 = true ↔ (b.add [e]).can_sample) ∧
    (∀ b : ReplayBuffer α, b.can_sample ↔
      b.sampled_batch_size ≤ b.count ∧ b.training_freq ≤ b.n_step) ∧
    (∀ (b : ReplayBuffer α) (draws : ℕ → ℕ),
      (b.sample draws).1.n_step = 0) ∧
    (∀ i j, i < j → ((dqnRun epoch b0 es).2).get? i = some true →
      ((dqnRun epoch b0 es).2).get? j = some true →
      (∀ m, i < m → m < j →
        ((dqnRun epoch b0 es).2).get? m = some false) →
      tf ≤ j - i) ∧
    (∀ i, ((dqnRun epoch b0 es).2).get? i = some true → sbs ≤ i + 1) := by
  subst hb0
  have hflag : ∀ m,
      ((dqnRun epoch (ReplayBuffer.make tf sbs C 1) es).2).get? m =
        (es.get? m).map (fun e => (dqnUpdate epoch
          (dqnState epoch (ReplayBuffer.make tf sbs C 1) (es.take m))
          e).2) :=
    fun m => dqnRun_get? epoch es _ m
  have hval : ∀ m (v : Bool),
      ((dqnRun epoch (ReplayBuffer.make tf sbs C 1) es).2).get? m = some v →
      ∃ e, es.get? m = some e ∧ (dqnUpdate epoch
        (dqnState epoch (ReplayBuffer.make tf sbs C 1) (es.take m)) e).2 =
          v := by
    intro m v hm
    rw [hflag m] at hm
    obtain ⟨e, he, hev⟩ := Option.map_eq_some'.mp hm
    exact ⟨e, he, hev⟩
  have hcfg : ∀ l : List (Experience α),
      (dqnState epoch (ReplayBuffer.make tf sbs C 1) l).training_freq = tf ∧
      (dqnState epoch (ReplayBuffer.make tf sbs C 1) l).sampled_batch_size =
        sbs ∧
      (dqnState epoch (ReplayBuffer.make tf sbs C 1) l).count ≤ l.length := by
    intro l
    have h := dqnState_fields epoch l (ReplayBuffer.make tf sbs C 1)
    refine ⟨h.1, h.2.1, ?_⟩
    have h2 := h.2.2
    have h0 : (ReplayBuffer.make tf sbs C 1 : ReplayBuffer α).count = 0 := rfl
    omega
  have hN0 : ∀ m e, es.get? m = some e →
      (dqnUpdate epoch
        (dqnState epoch (ReplayBuffer.make tf sbs C 1) (es.take m)) e).2 =
        true →
      (dqnState epoch (ReplayBuffer.make tf sbs C 1)
        (es.take (m + 1))).n_step = 0 := by
    intro m e he ht
    rw [dqnState_take_succ epoch _ es m e he, dqnUpdate_fst,
      if_pos ((dqnUpdate_snd epoch _ e).mp ht)]
    exact trainBuf_n_step epoch _ hep
  have hN1 : ∀ m e, es.get? m = some e →
      (dqnUpdate epoch
        (dqnState epoch (ReplayBuffer.make tf sbs C 1) (es.take m)) e).2 =
        false →
      (dqnState epoch (ReplayBuffer.make tf sbs C 1)
          (es.take (m + 1))).n_step =
        (dqnState epoch (ReplayBuffer.make tf sbs C 1)
          (es.take m)).n_step + 1 := by
    intro m e he hf
    have hns : ¬((dqnState epoch (ReplayBuffer.make tf sbs C 1)
        (es.take m)).add [e]).can_sample := by
      intro hcs
      rw [(dqnUpdate_snd epoch _ e).mpr hcs] at hf
      simp at hf
    rw [dqnState_take_succ epoch _ es m e he, dqnUpdate_fst, if_neg hns]
    exact (add_fields _ [e]).2.2.1
  refine ⟨fun b e => dqnUpdate_snd epoch b e, fun b => Iff.rfl,
    fun b draws => rfl, ?_, ?_⟩
  · intro i j hij hti htj hbetween
    obtain ⟨ei, hei, hvi⟩ := hval i true hti
    obtain ⟨ej, hej, hvj⟩ := hval j true htj
    have hrun : ∀ d, i + 1 + d ≤ j →
        (dqnState epoch (ReplayBuffer.make tf sbs C 1)
          (es.take (i + 1 + d))).n_step = d := by
      intro d
      induction d with
      | zero => intro _; exact hN0 i ei hei hvi
      | succ d ihd =>
        intro hd
        have hmlt : i + 1 + d < j := by omega
        obtain ⟨em, hem, hvm⟩ := hval (i + 1 + d) false
          (hbetween (i + 1 + d) (by omega) hmlt)
        have := hN1 (i + 1 + d) em hem hvm
        rw [show i + 1 + (d + 1) = (i + 1 + d) + 1 from rfl, this,
          ihd (by omega)]
    have hNj : (dqnState epoch (ReplayBuffer.make tf sbs C 1)
        (es.take j)).n_step = j - i - 1 := by
      have := hrun (j - i - 1) (by omega)
      rw [show i + 1 + (j - i - 1) = j from by omega] at this
      exact this
    have hcsj := (dqnUpdate_snd epoch _ ej).mp hvj
    have htfj : ((dqnState epoch (ReplayBuffer.make tf sbs C 1)
        (es.take j)).add [ej]).training_freq = tf := by
      rw [(add_fields _ [ej]).1, (hcfg (es.take j)).1]
    have hnsj : ((dqnState epoch (ReplayBuffer.make tf sbs C 1)
        (es.take j)).add [ej]).n_step = j - i := by
      rw [(add_fields _ [ej]).2.2.1, hNj]
      omega
    have := hcsj.2
    rw [htfj, hnsj] at this
    exact this
  · intro i hti
    obtain ⟨ei, hei, hvi⟩ := hval i true hti
    have hcsi := (dqnUpdate_snd epoch _ ei).mp hvi
    have hsbsi : ((dqnState epoch (ReplayBuffer.make tf sbs C 1)
        (es.take i)).add [ei]).sampled_batch_size = sbs := by
      rw [(add_fields _ [ei]).2.1, (hcfg (es.take i)).2.1]
    have hcnti : ((dqnState epoch (ReplayBuffer.make tf sbs C 1)
        (es.take i)).add [ei]).count ≤ i + 1 := by
      have h1 := (add_fields (dqnState epoch (ReplayBuffer.make tf sbs C 1)
        (es.take i)) [ei]).2.2.2
      have h2 := (hcfg (es.take i)).2.2
      have h3 : (es.take i).length ≤ i := by
        rw [List.length_take]
        omega
      simp only [List.length_singleton] at h1
      omega
    have := hcsi.1
    rw [hsbsi] at this
    omega

/-- Witness for the amended C7 at a concrete run (`epoch = 1`,
`training_freq = 2`, `sampled_batch_size = 1`, four updates: trains occur
at steps 1 and 3). -/
theorem c7_witness :
    (dqnRun 1 (ReplayBuffer.make 2 1 4 1 : ReplayBuffer ℚ)
      [⟨1, 1, 1, 1, 1⟩, ⟨2, 2, 2, 2, 2⟩, ⟨3, 3, 3, 3, 3⟩,
        ⟨4, 4, 4, 4, 4⟩]).2 = [false, true, false, true] ∧
    (2 : ℕ) ≤ 3 - 1 ∧ (1 : ℕ) ≤ 1 + 1 := by
  have h := c7_dqn_training_gated 2 1 4 1 (by norm_num)
    [(⟨1, 1, 1, 1, 1⟩ : Experience ℚ), ⟨2, 2, 2, 2, 2⟩, ⟨3, 3, 3, 3, 3⟩,
      ⟨4, 4, 4, 4, 4⟩] _ rfl
  refine ⟨rfl, ?_, ?_⟩
  · exact h.2.2.2.1 1 3 (by norm_num) rfl rfl
      (by
        intro m h1 h2
        have hm : m = 2 := by omega
        subst hm
        rfl)
  · exact h.2.2.2.2 1 rfl

end RL
